import Mathlib

/-!
A formal model of the concurrency-control core of an in-memory keyed record
store.  The source provides three variants:

* `OCC`   -- flat single-version optimistic concurrency control
            (file `occ_problem.py`, class `OCC`);
* `MVCC`  -- multi-version store whose commit performs an equality-based
            conflict check (file `mvcc_problem.py`, class `MVOCC`);
* `MVOCC` -- multi-version store with a timestamp-based `validate` method
            (file `mvocc_problem.py`, class `MVOCC`).

Python dictionaries are modelled as insertion-ordered association lists,
`defaultdict(list)` by an explicit `touch` operation that inserts an empty
chain on first access, and a Python `KeyError` (raised when an operation
touches an unknown transaction id) by `Option`: a `none` result of an
operation models a raised exception.  Record keys and transaction ids are
natural numbers; record values are a type parameter `V` (the Python code
only ever copies values and compares them for content equality, so any type
with decidable equality is a faithful rendering).

A transaction's read set stores, for the multi-version variants, the
*position* of the observed version inside the key's chain: the Python code
stores a reference to the version dictionary, and since chains are only
ever appended to while version objects are mutated only in their `end_ts`
field, a position in the chain is a faithful rendering of such a reference
(the recorded version, looked up at validation time, shows the mutations
performed in the meantime, exactly as the aliased Python object does).
-/

namespace CCModel

/-- Lookup in an insertion-ordered association list (Python `d[k]`). -/
def alookup {α : Type} : List (Nat × α) → Nat → Option α
  | [], _ => none
  | (k0, v) :: rest, k => if k0 = k then some v else alookup rest k

/-- Update-or-append (Python `d[k] = v`: updates in place if the key exists,
otherwise appends, preserving insertion order). -/
def aset {α : Type} : List (Nat × α) → Nat → α → List (Nat × α)
  | [], k, v => [(k, v)]
  | (k0, w) :: rest, k, v =>
    if k0 = k then (k0, v) :: rest else (k0, w) :: aset rest k v

/-- Python `k in d`. -/
def containsKey {α : Type} (r : List (Nat × α)) (k : Nat) : Bool :=
  (alookup r k).isSome

/-- One version in a key's chain: the dictionary
`{"value": v, "begin_ts": b, "end_ts": e, "tid": t}` built by `commit`. -/
structure Version (V : Type) where
  value : V
  begin_ts : Nat
  end_ts : Option Nat
  tid : Nat
deriving DecidableEq

instance {V : Type} [Inhabited V] : Inhabited (Version V) :=
  ⟨⟨default, 0, none, 0⟩⟩

/-- The multi-version record store: `defaultdict(list)` keyed by record key. -/
abbrev MRecords (V : Type) := List (Nat × List (Version V))

/-- Reading a missing key of a `defaultdict(list)` inserts an empty chain. -/
def touch {V : Type} (r : MRecords V) (k : Nat) : MRecords V :=
  if containsKey r k then r else r ++ [(k, [])]

/-- The chain currently associated with a key (empty if the key is absent). -/
def chainOf {V : Type} (r : MRecords V) (k : Nat) : List (Version V) :=
  (alookup r k).getD []

/-- The visibility test used by `read` in both multi-version variants:
`version['begin_ts'] <= begin_ts and (version['end_ts'] is None or
version['end_ts'] > begin_ts)`. -/
def visibleB {V : Type} (v : Version V) (b : Nat) : Bool :=
  decide (v.begin_ts ≤ b) &&
    (match v.end_ts with
     | none => true
     | some e => decide (b < e))

/-- The scan `for version in reversed(self.records[key])` with the
visibility test: position and version of the *last* visible version of the
chain, if any. -/
def findVisible {V : Type} : List (Version V) → Nat → Option (Nat × Version V)
  | [], _ => none
  | v :: rest, b =>
    match findVisible rest b with
    | some p => some (p.1 + 1, p.2)
    | none => if visibleB v b then some (0, v) else none

/-- Transaction context of the multi-version variants.  The Python
`snapshot` field is written by `read` and never consulted by any other
method, so it is omitted.  `read_set` holds pairs of key and chain
position; in `mvcc_problem.py` it is a dictionary (one entry per key,
updated in place), in `mvocc_problem.py` a list (duplicates allowed) —
the two variants below build it with `aset` and with append respectively,
over this common representation. -/
structure MTxn (V : Type) where
  read_set : List (Nat × Nat)
  write_set : List (Nat × V)
  begin_ts : Nat
deriving DecidableEq

instance {V : Type} : Inhabited (MTxn V) := ⟨⟨[], [], 0⟩⟩

/-- State of a multi-version store object. -/
structure MState (V : Type) where
  records : MRecords V
  transactions : List (Nat × MTxn V)
  next_tid : Nat
  commit_log : List Nat
deriving DecidableEq

instance {V : Type} : Inhabited (MState V) := ⟨⟨[], [], 1, []⟩⟩

/-- `__init__` of both multi-version classes. -/
def MInit (V : Type) : MState V := ⟨[], [], 1, []⟩

/-- `new_transaction` (identical in both multi-version files). -/
def mNewTransaction {V : Type} (s : MState V) : Nat × MState V :=
  (s.next_tid,
   { s with
       next_tid := s.next_tid + 1,
       transactions :=
         aset s.transactions s.next_tid ⟨[], [], s.commit_log.length⟩ })

/-- `write` (identical in both multi-version files): appends to the
write-set list; `KeyError` if the transaction id is unknown. -/
def mWrite {V : Type} (s : MState V) (tid k : Nat) (v : V) :
    Option (MState V) :=
  match alookup s.transactions tid with
  | none => none
  | some tx =>
    some { s with
             transactions :=
               aset s.transactions tid
                 { tx with write_set := tx.write_set ++ [(k, v)] } }

/-- `self.records[key][-1]['end_ts'] = commit_ts`. -/
def closeLast {V : Type} (c : List (Version V)) (ts : Nat) :
    List (Version V) :=
  match c.getLast? with
  | none => c
  | some v => c.dropLast ++ [{ v with end_ts := some ts }]

/-- One iteration of the write-application loop of `commit` on one chain:
close the head version if the chain is non-empty, then append the new
version. -/
def applyChain {V : Type} (c : List (Version V)) (v : V) (cts tid : Nat) :
    List (Version V) :=
  (if c.isEmpty then c else closeLast c cts) ++ [⟨v, cts, none, tid⟩]

/-- One iteration of the write-application loop of `commit` on the record
store (the access `self.records[key]` first touches the defaultdict). -/
def applyWrite {V : Type} (r : MRecords V) (tid cts : Nat) (kv : Nat × V) :
    MRecords V :=
  let r1 := touch r kv.1
  aset r1 kv.1 (applyChain (chainOf r1 kv.1) kv.2 cts tid)

/-- The full write-application loop of `commit`. -/
def applyWrites {V : Type} (r : MRecords V) (ws : List (Nat × V))
    (tid cts : Nat) : MRecords V :=
  ws.foldl (fun acc kv => applyWrite acc tid cts kv) r

/-- The operations of the external interface, used to build arbitrary
sequential interleavings of transaction steps. -/
inductive Op (V : Type) where
  | beginOp : Op V
  | readOp : Nat → Nat → Op V
  | writeOp : Nat → Nat → V → Op V
  | commitOp : Nat → Op V
deriving DecidableEq

/-- Run a list of operations with a given step function; `none` models an
operation that raised an exception (the sequence does not complete). -/
def runWith {V σ : Type} (st : σ → Op V → Option σ) :
    σ → List (Op V) → Option σ
  | s, [] => some s
  | s, op :: rest =>
    match st s op with
    | none => none
    | some s1 => runWith st s1 rest

namespace MVOCC

/-- `read` of `mvocc_problem.py`.  The defaultdict access
`self.records[key]` happens before anything else; if the chain is empty the
loop body never runs (so an unknown transaction id raises no `KeyError` in
that case) and the read returns `None` without recording anything. -/
def read {V : Type} (s : MState V) (tid k : Nat) :
    Option (MState V × Option V) :=
  let recs := touch s.records k
  let c := chainOf recs k
  if c.isEmpty then some ({ s with records := recs }, none)
  else
    match alookup s.transactions tid with
    | none => none
    | some tx =>
      match findVisible c tx.begin_ts with
      | none => some ({ s with records := recs }, none)
      | some p =>
        some ({ s with
                  records := recs,
                  transactions :=
                    aset s.transactions tid
                      { tx with read_set := tx.read_set ++ [(k, p.1)] } },
              some p.2.value)

/-- The loop of `validate` of `mvocc_problem.py`, threading the record
store through the defaultdict accesses `self.records[key]`.  For each read
entry: skip if the chain is empty; fail if the chain head has a strictly
larger `begin_ts` than the recorded version; fail if the recorded version's
`end_ts` is set and at most `current_ts`; otherwise continue.  A read entry
whose position lies outside the chain has no Python counterpart (the Python
read set stores the version object itself) and is skipped. -/
def validateGo {V : Type} (ts : Nat) :
    MRecords V → List (Nat × Nat) → MRecords V × Bool
  | r, [] => (r, true)
  | r, (k, idx) :: rest =>
    match (chainOf (touch r k) k).getLast?, (chainOf (touch r k) k).get? idx with
    | none, _ => validateGo ts (touch r k) rest
    | some _, none => validateGo ts (touch r k) rest
    | some latest, some rv =>
      if rv.begin_ts < latest.begin_ts then (touch r k, false)
      else
        match rv.end_ts with
        | some e =>
          if e ≤ ts then (touch r k, false) else validateGo ts (touch r k) rest
        | none => validateGo ts (touch r k) rest

/-- `validate` of `mvocc_problem.py` (`current_ts = len(self.commit_log)`),
returning the possibly-touched record store together with the verdict. -/
def validate {V : Type} (s : MState V) (tid : Nat) :
    Option (MRecords V × Bool) :=
  match alookup s.transactions tid with
  | none => none
  | some tx => some (validateGo s.commit_log.length s.records tx.read_set)

/-- `commit` of `mvocc_problem.py`: validate, and on success apply the
write set at `commit_ts = len(self.commit_log)` and append to the commit
log. -/
def commit {V : Type} (s : MState V) (tid : Nat) :
    Option (MState V × Bool) :=
  match alookup s.transactions tid with
  | none => none
  | some tx =>
    if (validateGo s.commit_log.length s.records tx.read_set).2 then
      some ({ s with
                records :=
                  applyWrites
                    (validateGo s.commit_log.length s.records tx.read_set).1
                    tx.write_set tid s.commit_log.length,
                commit_log := s.commit_log ++ [tid] }, true)
    else
      some ({ s with
                records :=
                  (validateGo s.commit_log.length s.records tx.read_set).1 },
            false)

/-- `step` of the `mvocc_problem.py` variant: the state effect of one
interface call (return values are handled by the per-operation functions
above). -/
def step {V : Type} (s : MState V) : Op V → Option (MState V)
  | .beginOp => some (mNewTransaction s).2
  | .readOp t k => (read s t k).map Prod.fst
  | .writeOp t k v => mWrite s t k v
  | .commitOp t => (commit s t).map Prod.fst

/-- A state of the `mvocc_problem.py` variant reachable from `__init__` by
a completed sequence of interface calls. -/
def Reach {V : Type} (s : MState V) : Prop :=
  ∃ ops : List (Op V), runWith step (MInit V) ops = some s

end MVOCC

namespace MVCC

/-- `read` of `mvcc_problem.py`: identical to the scan of
`mvocc_problem.py` except that the read set is a dictionary, so a repeated
read of the same key overwrites the entry in place. -/
def read {V : Type} (s : MState V) (tid k : Nat) :
    Option (MState V × Option V) :=
  let recs := touch s.records k
  let c := chainOf recs k
  if c.isEmpty then some ({ s with records := recs }, none)
  else
    match alookup s.transactions tid with
    | none => none
    | some tx =>
      match findVisible c tx.begin_ts with
      | none => some ({ s with records := recs }, none)
      | some p =>
        some ({ s with
                  records := recs,
                  transactions :=
                    aset s.transactions tid
                      { tx with read_set := aset tx.read_set k p.1 } },
              some p.2.value)

/-- The conflict-check loop at the start of `commit` of `mvcc_problem.py`:
`latest_version = self.records[key][-1] if self.records[key] else None;
if latest_version and latest_version != old_version: abort`.  The record
store is threaded through the defaultdict accesses.  As in
`MVOCC.validateGo`, a read entry whose position lies outside the chain has
no Python counterpart and is skipped. -/
def checkGo {V : Type} [DecidableEq V] :
    MRecords V → List (Nat × Nat) → MRecords V × Bool
  | r, [] => (r, true)
  | r, (k, idx) :: rest =>
    match (chainOf (touch r k) k).getLast?, (chainOf (touch r k) k).get? idx with
    | none, _ => checkGo (touch r k) rest
    | some _, none => checkGo (touch r k) rest
    | some latest, some rv =>
      if latest = rv then checkGo (touch r k) rest else (touch r k, false)

/-- `commit` of `mvcc_problem.py`: conflict check against the read set,
then application of the write set at `commit_ts = len(self.commit_log)`
(taken before the check; the check does not change the log length). -/
def commit {V : Type} [DecidableEq V] (s : MState V) (tid : Nat) :
    Option (MState V × Bool) :=
  match alookup s.transactions tid with
  | none => none
  | some tx =>
    if (checkGo s.records tx.read_set).2 then
      some ({ s with
                records :=
                  applyWrites (checkGo s.records tx.read_set).1
                    tx.write_set tid s.commit_log.length,
                commit_log := s.commit_log ++ [tid] }, true)
    else
      some ({ s with records := (checkGo s.records tx.read_set).1 }, false)

/-- `step` of the `mvcc_problem.py` variant. -/
def step {V : Type} [DecidableEq V] (s : MState V) : Op V → Option (MState V)
  | .beginOp => some (mNewTransaction s).2
  | .readOp t k => (read s t k).map Prod.fst
  | .writeOp t k v => mWrite s t k v
  | .commitOp t => (commit s t).map Prod.fst

/-- A state of the `mvcc_problem.py` variant reachable from `__init__` by
a completed sequence of interface calls. -/
def Reach {V : Type} [DecidableEq V] (s : MState V) : Prop :=
  ∃ ops : List (Op V), runWith step (MInit V) ops = some s

end MVCC

/-- Transaction context of the flat variant (`occ_problem.py`): both sets
are dictionaries; the read set stores the observed value itself (the flat
store replaces, and never mutates, stored values, so recording the value
is a faithful rendering of the stored object reference). -/
structure OTxn (V : Type) where
  read_set : List (Nat × V)
  write_set : List (Nat × V)
  begin_ts : Nat
deriving DecidableEq

instance {V : Type} : Inhabited (OTxn V) := ⟨⟨[], [], 0⟩⟩

/-- State of a flat `OCC` store object. -/
structure OState (V : Type) where
  records : List (Nat × V)
  transactions : List (Nat × OTxn V)
  next_tid : Nat
  commit_log : List Nat
deriving DecidableEq

instance {V : Type} : Inhabited (OState V) := ⟨⟨[], [], 1, []⟩⟩

namespace OCC

/-- `__init__` of `occ_problem.py` (`records` is a plain dictionary). -/
def OInit (V : Type) : OState V := ⟨[], [], 1, []⟩

/-- `new_transaction` of `occ_problem.py`. -/
def new_transaction {V : Type} (s : OState V) : Nat × OState V :=
  (s.next_tid,
   { s with
       next_tid := s.next_tid + 1,
       transactions :=
         aset s.transactions s.next_tid ⟨[], [], s.commit_log.length⟩ })

/-- `read` of `occ_problem.py`: if the key is present, record the current
value in the read set (raising `KeyError` when the transaction id is
unknown) and return a copy of it; otherwise return `None` without touching
the transaction table at all. -/
def read {V : Type} (s : OState V) (tid k : Nat) :
    Option (OState V × Option V) :=
  match alookup s.records k with
  | none => some (s, none)
  | some v =>
    match alookup s.transactions tid with
    | none => none
    | some tx =>
      some ({ s with
                transactions :=
                  aset s.transactions tid
                    { tx with read_set := aset tx.read_set k v } },
            some v)

/-- `write` of `occ_problem.py`: dictionary assignment into the write set. -/
def write {V : Type} (s : OState V) (tid k : Nat) (v : V) :
    Option (OState V) :=
  match alookup s.transactions tid with
  | none => none
  | some tx =>
    some { s with
             transactions :=
               aset s.transactions tid
                 { tx with write_set := aset tx.write_set k v } }

/-- The verdict of `validate` of `occ_problem.py`: passes iff every read
entry's key is still present with a value equal in content to the recorded
one.  (The local `current_ts` of the Python code is never used.) -/
def validateB {V : Type} [DecidableEq V] (r : List (Nat × V))
    (tx : OTxn V) : Bool :=
  tx.read_set.all fun kv => decide (alookup r kv.1 = some kv.2)

/-- The write-application loop of `commit` of `occ_problem.py`. -/
def applyAll {V : Type} (r : List (Nat × V)) (ws : List (Nat × V)) :
    List (Nat × V) :=
  ws.foldl (fun acc kv => aset acc kv.1 kv.2) r

/-- `commit` of `occ_problem.py`: validate (raising `KeyError` for an
unknown transaction id), and on success overwrite each written key and
append to the commit log. -/
def commit {V : Type} [DecidableEq V] (s : OState V) (tid : Nat) :
    Option (OState V × Bool) :=
  match alookup s.transactions tid with
  | none => none
  | some tx =>
    if validateB s.records tx then
      some ({ s with
                records := applyAll s.records tx.write_set,
                commit_log := s.commit_log ++ [tid] }, true)
    else some (s, false)

/-- `step` of the flat variant. -/
def step {V : Type} [DecidableEq V] (s : OState V) : Op V → Option (OState V)
  | .beginOp => some (new_transaction s).2
  | .readOp t k => (read s t k).map Prod.fst
  | .writeOp t k v => write s t k v
  | .commitOp t => (commit s t).map Prod.fst

/-- A state of the flat variant reachable from `__init__` by a completed
sequence of interface calls. -/
def Reach {V : Type} [DecidableEq V] (s : OState V) : Prop :=
  ∃ ops : List (Op V), runWith step (OInit V) ops = some s

end OCC

/-! ### Derived predicates and observables -/

/-- Begin-timestamps along a chain are non-decreasing
(the chain is ordered by `begin_ts` ascending). -/
def chainSorted {V : Type} (c : List (Version V)) : Prop :=
  c.Pairwise fun a b => a.begin_ts ≤ b.begin_ts

/-- All timestamps in a chain lie strictly below `n`. -/
def chainBounded {V : Type} (c : List (Version V)) (n : Nat) : Prop :=
  ∀ v ∈ c, v.begin_ts < n ∧ ∀ e, v.end_ts = some e → e < n

/-- Every version except possibly the last is closed. -/
def closedButLast {V : Type} (c : List (Version V)) : Prop :=
  ∀ v ∈ c.dropLast, v.end_ts ≠ none

/-- The last version of a non-empty chain is open. -/
def lastOpen {V : Type} (c : List (Version V)) : Prop :=
  ∀ v, c.getLast? = some v → v.end_ts = none

/-- Structural invariant of one version chain of a quiescent store whose
commit log has length `n`. -/
def chainInv {V : Type} (c : List (Version V)) (n : Nat) : Prop :=
  chainSorted c ∧ chainBounded c n ∧ closedButLast c ∧ lastOpen c

/-- Loosened bounds holding midway through a commit's write loop (the new
versions carry the current log length itself). -/
def chainMid {V : Type} (c : List (Version V)) (n : Nat) : Prop :=
  chainSorted c ∧
  (∀ v ∈ c, v.begin_ts ≤ n ∧ ∀ e, v.end_ts = some e → e ≤ n) ∧
  closedButLast c ∧ lastOpen c

/-- Invariant of one transaction context: its begin timestamp is at most
the current logical time, and each read entry points inside the chain of a
key that is present in the store. -/
def txInv {V : Type} (s : MState V) (tx : MTxn V) : Prop :=
  tx.begin_ts ≤ s.commit_log.length ∧
  ∀ ki ∈ tx.read_set,
    containsKey s.records ki.1 = true ∧
    ki.2 < (chainOf s.records ki.1).length

/-- Global invariant of a multi-version store state. -/
def Inv {V : Type} (s : MState V) : Prop :=
  (∀ k, chainInv (chainOf s.records k) s.commit_log.length) ∧
  ∀ t tx, alookup s.transactions t = some tx → txInv s tx

/-- Number of open versions in a chain. -/
def countOpen {V : Type} (c : List (Version V)) : Nat :=
  (c.filter fun v => v.end_ts = none).length

/-- Spec-side helper: the observed version "has since been closed" — its
`end_ts` is set and at most the reference timestamp. -/
def endClosedB (ts : Nat) : Option Nat → Bool
  | none => false
  | some e => decide (e ≤ ts)

/-- The conflict predicate of claim C2, written from the spec's words: a
read entry conflicts iff the version at the head of its key's chain
differs from the recorded version, or the recorded version's `end_ts` is
set and at most `ts` (the commit-log length at validation time).  The
recorded version is the chain element at the recorded position, carrying
the end-timestamp mutations performed since the read, exactly like the
aliased Python object. -/
def specConflictEntry {V : Type} [DecidableEq V] (r : MRecords V) (ts : Nat) :
    Nat × Nat → Bool
  | (k, idx) =>
    match (chainOf r k).get? idx with
    | none => false
    | some rv =>
      decide ((chainOf r k).getLast? ≠ some rv) || endClosedB ts rv.end_ts

/-- Claim C2's validation-failure condition over a whole read set. -/
def specConflict {V : Type} [DecidableEq V] (r : MRecords V) (ts : Nat)
    (rs : List (Nat × Nat)) : Bool :=
  rs.any (specConflictEntry r ts)

/-- The value a multi-version `read` at begin timestamp `b` returns for key
`k` (ignoring the bookkeeping side effects). -/
def readVal {V : Type} (s : MState V) (b k : Nat) : Option V :=
  (findVisible (chainOf s.records k) b).map fun p => p.2.value

/-- The value of the open head version of a key's chain: the currently
committed state of that key as rendered by the reporting view. -/
def headVal {V : Type} (s : MState V) (k : Nat) : Option V :=
  (chainOf s.records k).getLast?.map Version.value

/-- The immutable part of a version: everything except `end_ts`. -/
def verCore {V : Type} (v : Version V) : V × Nat × Nat :=
  (v.value, v.begin_ts, v.tid)

/-- Evolution relation between two snapshots of one key's chain: the chain
is only ever appended to — every old position still holds the same version,
except that its `end_ts` may have moved from absent to set. -/
def chainMono {V : Type} (c c' : List (Version V)) : Prop :=
  c.length ≤ c'.length ∧
  ∀ i v, c.get? i = some v →
    ∃ w, c'.get? i = some w ∧ verCore v = verCore w ∧
      (v.end_ts = w.end_ts ∨ v.end_ts = none)

/-! ### Concrete executions

Concrete states used by the scenario theorem and by counterexamples and
witnesses.  Values are plain naturals standing for the `Score` field of the
record dictionaries (the code only copies and compares values).  States
after a fallible operation are extracted with `getD default`; the theorems
always pin down the whole `Option` result, so a defaulted crash cannot be
mistaken for a real state. -/

/-- C9 initial flat store: key 1 (`user_1`) at Score 100, empty commit log. -/
def c9o0 : OState Nat := ⟨[(1, 100)], [], 1, []⟩

def c9o1 : OState Nat := (OCC.new_transaction c9o0).2

def c9or1 : OState Nat × Option Nat := (OCC.read c9o1 1 1).getD default

def c9o2 : OState Nat := (OCC.new_transaction c9or1.1).2

def c9or2 : OState Nat × Option Nat := (OCC.read c9o2 2 1).getD default

def c9o3 : OState Nat := (OCC.write c9or2.1 2 1 120).getD default

def c9oc2 : OState Nat × Bool := (OCC.commit c9o3 2).getD default

def c9o4 : OState Nat := (OCC.write c9oc2.1 1 1 150).getD default

def c9oc1 : OState Nat × Bool := (OCC.commit c9o4 1).getD default

def c9o5 : OState Nat := (OCC.new_transaction c9oc1.1).2

def c9or3 : OState Nat × Option Nat := (OCC.read c9o5 3 1).getD default

def c9o6 : OState Nat := (OCC.write c9or3.1 3 1 170).getD default

def c9oc3 : OState Nat × Bool := (OCC.commit c9o6 3).getD default

/-- All flat-store states of the C9 interleaving. -/
def c9oStates : List (OState Nat) :=
  [c9o0, c9o1, c9or1.1, c9o2, c9or2.1, c9o3, c9oc2.1, c9o4, c9oc1.1,
   c9o5, c9or3.1, c9o6, c9oc3.1]

/-- C9 initial multi-version store: key 1 at Score 100 in a single open
version, empty commit log. -/
def c9m0 : MState Nat := ⟨[(1, [⟨100, 0, none, 0⟩])], [], 1, []⟩

def c9m1 : MState Nat := (mNewTransaction c9m0).2

def c9mr1 : MState Nat × Option Nat := (MVOCC.read c9m1 1 1).getD default

def c9m2 : MState Nat := (mNewTransaction c9mr1.1).2

def c9mr2 : MState Nat × Option Nat := (MVOCC.read c9m2 2 1).getD default

def c9m3 : MState Nat := (mWrite c9mr2.1 2 1 120).getD default

def c9mc2 : MState Nat × Bool := (MVOCC.commit c9m3 2).getD default

def c9m4 : MState Nat := (mWrite c9mc2.1 1 1 150).getD default

def c9mc1 : MState Nat × Bool := (MVOCC.commit c9m4 1).getD default

def c9m5 : MState Nat := (mNewTransaction c9mc1.1).2

def c9mr3 : MState Nat × Option Nat := (MVOCC.read c9m5 3 1).getD default

def c9m6 : MState Nat := (mWrite c9mr3.1 3 1 170).getD default

def c9mc3 : MState Nat × Bool := (MVOCC.commit c9m6 3).getD default

/-- All `mvocc_problem.py` states of the C9 interleaving. -/
def c9mStates : List (MState Nat) :=
  [c9m0, c9m1, c9mr1.1, c9m2, c9mr2.1, c9m3, c9mc2.1, c9m4, c9mc1.1,
   c9m5, c9mr3.1, c9m6, c9mc3.1]

def c9v1 : MState Nat := (mNewTransaction c9m0).2

def c9vr1 : MState Nat × Option Nat := (MVCC.read c9v1 1 1).getD default

def c9v2 : MState Nat := (mNewTransaction c9vr1.1).2

def c9vr2 : MState Nat × Option Nat := (MVCC.read c9v2 2 1).getD default

def c9v3 : MState Nat := (mWrite c9vr2.1 2 1 120).getD default

def c9vc2 : MState Nat × Bool := (MVCC.commit c9v3 2).getD default

def c9v4 : MState Nat := (mWrite c9vc2.1 1 1 150).getD default

def c9vc1 : MState Nat × Bool := (MVCC.commit c9v4 1).getD default

def c9v5 : MState Nat := (mNewTransaction c9vc1.1).2

def c9vr3 : MState Nat × Option Nat := (MVCC.read c9v5 3 1).getD default

def c9v6 : MState Nat := (mWrite c9vr3.1 3 1 170).getD default

def c9vc3 : MState Nat × Bool := (MVCC.commit c9v6 3).getD default

/-- All `mvcc_problem.py` states of the C9 interleaving. -/
def c9vStates : List (MState Nat) :=
  [c9m0, c9v1, c9vr1.1, c9v2, c9vr2.1, c9v3, c9vc2.1, c9v4, c9vc1.1,
   c9v5, c9vr3.1, c9v6, c9vc3.1]

/-- C3 counterexample: T2 reads `Score 100`; T3 then successfully commits
the *identical* value 100 to the same key; T2's validation still passes. -/
def c3o0 : OState Nat := ⟨[(1, 100)], [], 1, []⟩

def c3o1 : OState Nat := (OCC.new_transaction c3o0).2

def c3or : OState Nat × Option Nat := (OCC.read c3o1 1 1).getD default

def c3o2 : OState Nat := (OCC.new_transaction c3or.1).2

def c3o3 : OState Nat := (OCC.write c3o2 2 1 100).getD default

def c3oc2 : OState Nat × Bool := (OCC.commit c3o3 2).getD default

def c3oc1 : OState Nat × Bool := (OCC.commit c3oc2.1 1).getD default

/-- C4 counterexample (flat): T1 reads 100; T2 commits 120; T1's second
read sees 120. -/
def c4o1 : OState Nat := (OCC.new_transaction c9o0).2

def c4or1 : OState Nat × Option Nat := (OCC.read c4o1 1 1).getD default

def c4o2 : OState Nat := (OCC.new_transaction c4or1.1).2

def c4o3 : OState Nat := (OCC.write c4o2 2 1 120).getD default

def c4oc2 : OState Nat × Bool := (OCC.commit c4o3 2).getD default

def c4or2 : OState Nat × Option Nat := (OCC.read c4oc2.1 1 1).getD default

/-- C4 counterexample (multi-version, `mvcc_problem.py`): T2 begins at the
same logical time 1 at which T3 later commits; T2's first read sees 100,
its second read sees T3's 120. -/
def c4v1 : MState Nat := (mNewTransaction (MInit Nat)).2

def c4v2 : MState Nat := (mWrite c4v1 1 1 100).getD default

def c4vc1 : MState Nat × Bool := (MVCC.commit c4v2 1).getD default

def c4v3 : MState Nat := (mNewTransaction c4vc1.1).2

def c4vr1 : MState Nat × Option Nat := (MVCC.read c4v3 2 1).getD default

def c4v4 : MState Nat := (mNewTransaction c4vr1.1).2

def c4v5 : MState Nat := (mWrite c4v4 3 1 120).getD default

def c4vc3 : MState Nat × Bool := (MVCC.commit c4v5 3).getD default

def c4vr2 : MState Nat × Option Nat := (MVCC.read c4vc3.1 2 1).getD default

/-- C6 counterexample: one transaction writes key 1 twice before a single
successful commit in the `mvocc_problem.py` store. -/
def c6m1 : MState Nat := (mNewTransaction (MInit Nat)).2

def c6m2 : MState Nat := (mWrite c6m1 1 1 7).getD default

def c6m3 : MState Nat := (mWrite c6m2 1 1 9).getD default

def c6mc : MState Nat × Bool := (MVOCC.commit c6m3 1).getD default

/-- C7 counterexample: a read of a never-written key. -/
def c7m1 : MState Nat := (mNewTransaction (MInit Nat)).2

def c7mr : MState Nat × Option Nat := (MVOCC.read c7m1 1 5).getD default

def c7o1 : OState Nat := (OCC.new_transaction (OCC.OInit Nat)).2

def c7or : OState Nat × Option Nat := (OCC.read c7o1 1 5).getD default

/-- C8 counterexample: `commit` twice on the same transaction id. -/
def c8o1 : OState Nat := (OCC.new_transaction (OCC.OInit Nat)).2

def c8o2 : OState Nat := (OCC.write c8o1 1 5 10).getD default

def c8oc1 : OState Nat × Bool := (OCC.commit c8o2 1).getD default

def c8oc2 : OState Nat × Bool := (OCC.commit c8oc1.1 1).getD default

/-- A reachable multi-version state used by witnesses: transaction 1
loads key 1, transaction 2 begins and reads it, transaction 3 overwrites
it and commits, so transaction 2's subsequent commit fails. -/
def wOps : List (Op Nat) :=
  [Op.beginOp, Op.writeOp 1 1 5, Op.commitOp 1, Op.beginOp, Op.readOp 2 1,
   Op.beginOp, Op.writeOp 3 1 7, Op.commitOp 3]

def wM : MState Nat := (runWith MVOCC.step (MInit Nat) wOps).getD default

def wMc2 : MState Nat × Bool := (MVOCC.commit wM 2).getD default

def wMc3 : MState Nat × Bool := (MVOCC.commit wM 3).getD default

def wV : MState Nat := (runWith MVCC.step (MInit Nat) wOps).getD default

def wVc2 : MState Nat × Bool := (MVCC.commit wV 2).getD default

/-- Witness transaction contexts in `wM` and `wV`. -/
def wMt2 : MTxn Nat := (alookup wM.transactions 2).getD default

def wVt2 : MTxn Nat := (alookup wV.transactions 2).getD default

/-- Extra operations run after `wM` / `wV` for run-level witnesses. -/
def wOps2 : List (Op Nat) :=
  [Op.beginOp, Op.writeOp 4 1 9, Op.commitOp 4]

def wM2 : MState Nat := (runWith MVOCC.step wM wOps2).getD default

def wV2 : MState Nat := (runWith MVCC.step wV wOps2).getD default

/-- A concrete read of transaction 2 in the witness state `wV`. -/
def wVr : MState Nat × Option Nat := (MVCC.read wV 2 1).getD default

/-- Transaction contexts extracted from concrete states, for witnesses. -/
def c3wr : OTxn Nat := (alookup c9o3.transactions 1).getD default

def c3ww : OTxn Nat := (alookup c9o3.transactions 2).getD default

def c6t1 : MTxn Nat := (alookup c6m3.transactions 1).getD default

def c6od1 : OState Nat := (OCC.write c8o1 1 5 1).getD default

def c6od2 : OState Nat := (OCC.write c6od1 1 5 2).getD default

def c6ot : OTxn Nat := (alookup c6od2.transactions 1).getD default

def c8t1 : OTxn Nat := (alookup c8o2.transactions 1).getD default

def c7ot : OTxn Nat := (alookup c9o1.transactions 1).getD default

def c7mt : MTxn Nat := (alookup c9m1.transactions 1).getD default

/-! ### Basic lemmas on the dictionary model -/

theorem alookup_aset_self {α : Type} (r : List (Nat × α)) (k : Nat) (v : α) :
    alookup (aset r k v) k = some v := by
  induction r with
  | nil => simp [aset, alookup]
  | cons p rest ih =>
    obtain ⟨k0, w⟩ := p
    by_cases h : k0 = k
    · simp [aset, h, alookup]
    · simp [aset, h, alookup, ih]

theorem alookup_aset_ne {α : Type} (r : List (Nat × α)) (k k' : Nat) (v : α)
    (h : k' ≠ k) : alookup (aset r k v) k' = alookup r k' := by
  have hne : k ≠ k' := Ne.symm h
  induction r with
  | nil => simp [aset, alookup, hne]
  | cons p rest ih =>
    obtain ⟨k0, w⟩ := p
    by_cases hk : k0 = k
    · have hkk' : ¬ k0 = k' := by rw [hk]; exact hne
      simp [aset, hk, alookup, hkk', hne]
    · simp only [aset, if_neg hk, alookup]
      rw [ih]

theorem alookup_aset_cases {α : Type} {r : List (Nat × α)} {k t : Nat}
    {v w : α} (h : alookup (aset r k v) t = some w) :
    (t = k ∧ w = v) ∨ alookup r t = some w := by
  by_cases ht : t = k
  · subst ht
    rw [alookup_aset_self] at h
    exact Or.inl ⟨rfl, (Option.some_injective _ h).symm⟩
  · rw [alookup_aset_ne _ _ _ _ ht] at h
    exact Or.inr h

theorem mem_aset {α : Type} {r : List (Nat × α)} {k : Nat} {v : α}
    {p : Nat × α} (h : p ∈ aset r k v) : p = (k, v) ∨ p ∈ r := by
  induction r with
  | nil => simpa [aset] using h
  | cons q rest ih =>
    obtain ⟨k0, w⟩ := q
    by_cases hk : k0 = k
    · subst hk
      rcases (by simpa [aset] using h : p = (k0, v) ∨ p ∈ rest) with h1 | h1
      · exact Or.inl h1
      · exact Or.inr (List.mem_cons_of_mem _ h1)
    · rcases (by simpa [aset, hk] using h : p = (k0, w) ∨ p ∈ aset rest k v)
        with h1 | h1
      · exact Or.inr (by simp [h1])
      · rcases ih h1 with h2 | h2
        · exact Or.inl h2
        · exact Or.inr (List.mem_cons_of_mem _ h2)

theorem alookup_append_some {α : Type} {r : List (Nat × α)}
    (r' : List (Nat × α)) {k : Nat} {v : α} (h : alookup r k = some v) :
    alookup (r ++ r') k = some v := by
  induction r with
  | nil => simp [alookup] at h
  | cons p rest ih =>
    obtain ⟨k0, w⟩ := p
    by_cases hk : k0 = k
    · rw [List.cons_append]
      simp only [alookup, if_pos hk] at h ⊢
      exact h
    · rw [List.cons_append]
      simp only [alookup, if_neg hk] at h ⊢
      exact ih h

theorem alookup_append_none {α : Type} {r : List (Nat × α)}
    (r' : List (Nat × α)) {k : Nat} (h : alookup r k = none) :
    alookup (r ++ r') k = alookup r' k := by
  induction r with
  | nil => simp
  | cons p rest ih =>
    obtain ⟨k0, w⟩ := p
    by_cases hk : k0 = k
    · simp [alookup, hk] at h
    · rw [List.cons_append]
      simp only [alookup, if_neg hk] at h ⊢
      exact ih h

theorem touch_of_contains {V : Type} {r : MRecords V} {k : Nat}
    (h : containsKey r k = true) : touch r k = r := by
  simp [touch, h]

theorem alookup_none_of_not_contains {α : Type} {r : List (Nat × α)}
    {k : Nat} (h : ¬ containsKey r k = true) : alookup r k = none := by
  cases hv : alookup r k with
  | none => rfl
  | some v => exact absurd (by simp [containsKey, hv]) h

theorem exists_of_contains {α : Type} {r : List (Nat × α)} {k : Nat}
    (h : containsKey r k = true) : ∃ v, alookup r k = some v := by
  cases hv : alookup r k with
  | none => simp [containsKey, hv] at h
  | some v => exact ⟨v, rfl⟩

theorem chainOf_touch {V : Type} (r : MRecords V) (k k' : Nat) :
    chainOf (touch r k) k' = chainOf r k' := by
  unfold touch
  by_cases h : containsKey r k = true
  · simp [h]
  · have hnone : alookup r k = none := alookup_none_of_not_contains h
    simp only [h, if_false, Bool.false_eq_true]
    cases hv : alookup r k' with
    | some v => simp [chainOf, alookup_append_some _ hv, hv]
    | none =>
      rw [chainOf, alookup_append_none _ hv]
      by_cases hk : k = k'
      · subst hk
        simp [chainOf, alookup, hv]
      · simp [chainOf, alookup, hk, hv]

theorem touch_of_not_contains {V : Type} {r : MRecords V} {k : Nat}
    (h : ¬ containsKey r k = true) : touch r k = r ++ [(k, [])] := by
  simp [touch, h]

theorem containsKey_touch_self {V : Type} (r : MRecords V) (k : Nat) :
    containsKey (touch r k) k = true := by
  by_cases h : containsKey r k = true
  · rw [touch_of_contains h]; exact h
  · have hnone : alookup r k = none := alookup_none_of_not_contains h
    rw [touch_of_not_contains h, containsKey, alookup_append_none _ hnone]
    simp [alookup]

theorem containsKey_touch_mono {V : Type} {r : MRecords V} {k k' : Nat}
    (h : containsKey r k' = true) : containsKey (touch r k) k' = true := by
  by_cases hc : containsKey r k = true
  · rw [touch_of_contains hc]; exact h
  · obtain ⟨v, hv⟩ := exists_of_contains h
    rw [touch_of_not_contains hc, containsKey, alookup_append_some _ hv]
    rfl

theorem chainOf_aset_self {V : Type} (r : MRecords V) (k : Nat)
    (c : List (Version V)) : chainOf (aset r k c) k = c := by
  simp [chainOf, alookup_aset_self]

theorem chainOf_aset_ne {V : Type} (r : MRecords V) {k k' : Nat}
    (c : List (Version V)) (h : k' ≠ k) :
    chainOf (aset r k c) k' = chainOf r k' := by
  simp [chainOf, alookup_aset_ne _ _ _ _ h]

theorem containsKey_aset_mono {V : Type} {r : MRecords V} {k k' : Nat}
    {c : List (Version V)} (h : containsKey r k' = true) :
    containsKey (aset r k c) k' = true := by
  by_cases hk : k' = k
  · subst hk
    simp [containsKey, alookup_aset_self]
  · simpa [containsKey, alookup_aset_ne _ _ _ _ hk] using h

/-! ### Lemmas on chains -/

theorem closeLast_concat {V : Type} (c : List (Version V)) (x : Version V)
    (ts : Nat) :
    closeLast (c ++ [x]) ts = c ++ [{ x with end_ts := some ts }] := by
  rw [closeLast, List.getLast?_concat, List.dropLast_concat]

theorem closeLast_length {V : Type} (c : List (Version V)) (ts : Nat) :
    (closeLast c ts).length = c.length := by
  cases hc : c.getLast? with
  | none => rw [closeLast, hc]
  | some x =>
    have hne : c ≠ [] := by
      intro h
      rw [h] at hc
      simp at hc
    rw [closeLast, hc]
    simp [Nat.sub_add_cancel (List.length_pos.mpr hne)]

theorem applyChain_length {V : Type} (c : List (Version V)) (v : V)
    (cts tid : Nat) : (applyChain c v cts tid).length = c.length + 1 := by
  by_cases hc : c.isEmpty = true
  · simp [applyChain, hc]
  · simp [applyChain, hc, closeLast_length]

theorem findVisible_lt {V : Type} (c : List (Version V)) (b : Nat) :
    ∀ i v, findVisible c b = some (i, v) → i < c.length ∧ c.get? i = some v := by
  induction c with
  | nil =>
    intro i v h
    simp [findVisible] at h
  | cons w rest ih =>
    intro i v h
    rw [findVisible] at h
    cases hf : findVisible rest b with
    | some p =>
      rw [hf] at h
      obtain ⟨hi, hv⟩ := ih p.1 p.2 (by rw [hf])
      cases h
      exact ⟨Nat.succ_lt_succ hi, by simpa [List.get?] using hv⟩
    | none =>
      rw [hf] at h
      by_cases hw : visibleB w b = true
      · rw [if_pos hw] at h
        cases h
        exact ⟨Nat.succ_pos _, rfl⟩
      · rw [if_neg hw] at h
        cases h

theorem findVisible_concat {V : Type} (c : List (Version V)) (x : Version V)
    (b : Nat) :
    findVisible (c ++ [x]) b =
      if visibleB x b then some (c.length, x) else findVisible c b := by
  induction c with
  | nil => simp [findVisible]
  | cons w rest ih =>
    by_cases hv : visibleB x b = true
    · simp only [List.cons_append, findVisible]
      simp [ih, hv]
    · simp only [List.cons_append, findVisible]
      simp [ih, hv]

/-! ### Effects of the write-application loop -/

theorem applyWrites_cons {V : Type} (r : MRecords V) (kv : Nat × V)
    (ws : List (Nat × V)) (tid cts : Nat) :
    applyWrites r (kv :: ws) tid cts =
      applyWrites (applyWrite r tid cts kv) ws tid cts := rfl

theorem chainOf_applyWrite_self {V : Type} (r : MRecords V) (tid cts : Nat)
    (kv : Nat × V) :
    chainOf (applyWrite r tid cts kv) kv.1 =
      applyChain (chainOf r kv.1) kv.2 cts tid := by
  simp only [applyWrite]
  rw [chainOf_aset_self, chainOf_touch]

theorem chainOf_applyWrite_ne {V : Type} (r : MRecords V) (tid cts : Nat)
    (kv : Nat × V) {k : Nat} (h : k ≠ kv.1) :
    chainOf (applyWrite r tid cts kv) k = chainOf r k := by
  simp only [applyWrite]
  rw [chainOf_aset_ne _ _ h, chainOf_touch]

theorem containsKey_applyWrite_mono {V : Type} {r : MRecords V}
    {tid cts : Nat} {kv : Nat × V} {k : Nat} (h : containsKey r k = true) :
    containsKey (applyWrite r tid cts kv) k = true := by
  simp only [applyWrite]
  exact containsKey_aset_mono (containsKey_touch_mono h)

theorem containsKey_applyWrites_mono {V : Type} (ws : List (Nat × V))
    {tid cts : Nat} : ∀ {r : MRecords V} {k : Nat},
    containsKey r k = true → containsKey (applyWrites r ws tid cts) k = true := by
  induction ws with
  | nil => intro r k h; exact h
  | cons kv rest ih =>
    intro r k h
    rw [applyWrites_cons]
    exact ih (containsKey_applyWrite_mono h)

theorem chainOf_applyWrites_length {V : Type} (ws : List (Nat × V))
    (tid cts : Nat) : ∀ (r : MRecords V) (k : Nat),
    (chainOf r k).length ≤ (chainOf (applyWrites r ws tid cts) k).length := by
  induction ws with
  | nil => intro r k; exact Nat.le_refl _
  | cons kv rest ih =>
    intro r k
    rw [applyWrites_cons]
    refine Nat.le_trans ?_ (ih (applyWrite r tid cts kv) k)
    by_cases hk : k = kv.1
    · subst hk
      rw [chainOf_applyWrite_self, applyChain_length]
      exact Nat.le_succ _
    · rw [chainOf_applyWrite_ne _ _ _ _ hk]

/-! ### Preservation of the structural chain invariant -/

theorem chainInv_nil {V : Type} (n : Nat) :
    chainInv ([] : List (Version V)) n := by
  refine ⟨List.Pairwise.nil, ?_, ?_, ?_⟩
  · intro v hv; simp at hv
  · intro v hv; simp at hv
  · intro v hv; simp at hv

theorem chainInv_to_chainMid {V : Type} {c : List (Version V)} {n : Nat}
    (h : chainInv c n) : chainMid c n := by
  obtain ⟨hs, hb, hcl, hlo⟩ := h
  refine ⟨hs, ?_, hcl, hlo⟩
  intro v hv
  obtain ⟨h1, h2⟩ := hb v hv
  exact ⟨Nat.le_of_lt h1, fun e he => Nat.le_of_lt (h2 e he)⟩

theorem chainMid_to_chainInv_succ {V : Type} {c : List (Version V)} {n : Nat}
    (h : chainMid c n) : chainInv c (n + 1) := by
  obtain ⟨hs, hb, hcl, hlo⟩ := h
  refine ⟨hs, ?_, hcl, hlo⟩
  intro v hv
  obtain ⟨h1, h2⟩ := hb v hv
  exact ⟨Nat.lt_succ_of_le h1, fun e he => Nat.lt_succ_of_le (h2 e he)⟩

theorem closeLast_of_ne_nil {V : Type} {c : List (Version V)} (ts : Nat)
    (h : c ≠ []) :
    closeLast c ts =
      c.dropLast ++ [{ c.getLast h with end_ts := some ts }] := by
  rw [closeLast, List.getLast?_eq_getLast_of_ne_nil h]

theorem applyChain_chainMid {V : Type} {c : List (Version V)} {n : Nat}
    (h : chainMid c n) (v : V) (tid : Nat) :
    chainMid (applyChain c v n tid) n := by
  obtain ⟨hs, hb, hcl, hlo⟩ := h
  by_cases hc : c.isEmpty = true
  · have hnil : c = [] := List.isEmpty_iff.mp hc
    subst hnil
    refine ⟨?_, ?_, ?_, ?_⟩
    · simp [applyChain, chainSorted]
    · intro w hw
      simp [applyChain] at hw
      subst hw
      exact ⟨Nat.le_refl n, fun e he => by simp at he⟩
    · intro w hw
      simp [applyChain] at hw
    · intro w hw
      simp [applyChain] at hw
      subst hw
      rfl
  · have hne : c ≠ [] := fun h0 => hc (by simp [h0])
    have hdecomp : c = c.dropLast ++ [c.getLast hne] :=
      (List.dropLast_append_getLast hne).symm
    set x := c.getLast hne with hx
    set d := c.dropLast with hd
    have hxopen : x.end_ts = none :=
      hlo x (List.getLast?_eq_getLast_of_ne_nil hne)
    have hdmem : ∀ w ∈ d, w.end_ts ≠ none := fun w hw => hcl w hw
    have hsd : chainSorted (d ++ [x]) := by rwa [← hdecomp]
    have hbd : ∀ w ∈ d ++ [x],
        w.begin_ts ≤ n ∧ ∀ e, w.end_ts = some e → e ≤ n := by
      rw [← hdecomp]; exact hb
    rw [applyChain, if_neg (by simp [hc]), closeLast_of_ne_nil _ hne, ← hd, ← hx]
    have hsort' := (List.pairwise_append.mp hsd)
    refine ⟨?_, ?_, ?_, ?_⟩
    · rw [chainSorted, List.pairwise_append]
      refine ⟨?_, List.pairwise_singleton _ _, ?_⟩
      · rw [List.pairwise_append]
        refine ⟨hsort'.1, List.pairwise_singleton _ _, ?_⟩
        intro a ha b hb'
        simp at hb'
        subst hb'
        exact hsort'.2.2 a ha x (by simp)
      · intro a ha b hb'
        simp at hb'
        subst hb'
        rcases List.mem_append.mp ha with ha' | ha'
        · exact (hbd a (List.mem_append.mpr (Or.inl ha'))).1
        · simp at ha'
          subst ha'
          exact (hbd x (by simp)).1
    · intro w hw
      rcases List.mem_append.mp hw with hw' | hw'
      · rcases List.mem_append.mp hw' with hw'' | hw''
        · exact hbd w (List.mem_append.mpr (Or.inl hw''))
        · simp at hw''
          subst hw''
          refine ⟨(hbd x (by simp)).1, ?_⟩
          intro e he
          simp at he
          subst he
          exact Nat.le_refl n
      · simp at hw'
        subst hw'
        exact ⟨Nat.le_refl n, fun e he => by simp at he⟩
    · intro w hw
      rw [List.dropLast_concat] at hw
      rcases List.mem_append.mp hw with hw' | hw'
      · exact hdmem w hw'
      · simp at hw'
        subst hw'
        simp
    · intro w hw
      rw [List.getLast?_concat] at hw
      cases hw
      rfl

theorem applyWrites_chainMid {V : Type} (ws : List (Nat × V)) (tid n : Nat) :
    ∀ (r : MRecords V), (∀ k, chainMid (chainOf r k) n) →
      ∀ k, chainMid (chainOf (applyWrites r ws tid n) k) n := by
  induction ws with
  | nil => intro r h k; exact h k
  | cons kv rest ih =>
    intro r h k
    rw [applyWrites_cons]
    refine ih _ ?_ k
    intro k'
    by_cases hk : k' = kv.1
    · subst hk
      rw [chainOf_applyWrite_self]
      exact applyChain_chainMid (h _) _ _
    · rw [chainOf_applyWrite_ne _ _ _ _ hk]
      exact h k'

theorem countOpen_le_one {V : Type} {c : List (Version V)}
    (h : closedButLast c) : countOpen c ≤ 1 := by
  induction c with
  | nil => exact Nat.zero_le _
  | cons w rest ih =>
    cases rest with
    | nil =>
      rw [countOpen]
      by_cases hw : w.end_ts = none <;> simp [hw]
    | cons y ys =>
      have hw : w.end_ts ≠ none := h w (by simp [List.dropLast])
      have hrest : closedButLast (y :: ys) := by
        intro v hv
        exact h v (by simp [List.dropLast, hv])
      have hdec : decide (w.end_ts = none) = false := by simpa using hw
      have : countOpen (w :: y :: ys) = countOpen (y :: ys) := by
        rw [countOpen, countOpen, List.filter, hdec]
      rw [this]
      exact ih hrest

/-! ### Chain monotonicity: chains are only ever appended to -/

theorem chainMono_refl {V : Type} (c : List (Version V)) : chainMono c c :=
  ⟨Nat.le_refl _, fun _ v h => ⟨v, h, rfl, Or.inl rfl⟩⟩

theorem chainMono_trans {V : Type} {a b c : List (Version V)}
    (h1 : chainMono a b) (h2 : chainMono b c) : chainMono a c := by
  refine ⟨Nat.le_trans h1.1 h2.1, ?_⟩
  intro i v hv
  obtain ⟨w, hw, hcore, hend⟩ := h1.2 i v hv
  obtain ⟨u, hu, hcore', hend'⟩ := h2.2 i w hw
  refine ⟨u, hu, hcore.trans hcore', ?_⟩
  rcases hend with he | he
  · rcases hend' with he' | he'
    · exact Or.inl (he.trans he')
    · exact Or.inr (he.trans he')
  · exact Or.inr he

theorem applyChain_chainMono {V : Type} {c : List (Version V)}
    (hlo : lastOpen c) (v : V) (cts tid : Nat) :
    chainMono c (applyChain c v cts tid) := by
  refine ⟨by rw [applyChain_length]; exact Nat.le_succ _, ?_⟩
  intro i w hw
  have hi : i < c.length := by
    by_contra hge
    rw [List.get?_len_le (Nat.le_of_not_lt hge)] at hw
    exact Option.noConfusion hw
  by_cases hc : c.isEmpty = true
  · rw [List.isEmpty_iff.mp hc] at hi
    exact absurd hi (Nat.not_lt_zero i)
  · have hne : c ≠ [] := fun h0 => hc (by simp [h0])
    have hdecomp : c = c.dropLast ++ [c.getLast hne] :=
      (List.dropLast_append_getLast hne).symm
    rw [applyChain, if_neg (by simp [hc]), closeLast_of_ne_nil _ hne]
    by_cases hid : i < c.dropLast.length
    · refine ⟨w, ?_, rfl, Or.inl rfl⟩
      have h1 : (c.dropLast ++
          [{ c.getLast hne with end_ts := some cts }] ++
          [(⟨v, cts, none, tid⟩ : Version V)]).get? i =
          (c.dropLast ++
            [{ c.getLast hne with end_ts := some cts }]).get? i :=
        List.get?_append (by simp; omega)
      have h2 : (c.dropLast ++
          [{ c.getLast hne with end_ts := some cts }]).get? i =
          c.dropLast.get? i := List.get?_append hid
      have h3 : c.get? i = c.dropLast.get? i := by
        conv_lhs => rw [hdecomp]
        exact List.get?_append hid
      rw [h1, h2, ← h3]
      exact hw
    · have hieq : i = c.dropLast.length := by
        have hlt : i < c.dropLast.length + 1 := by
          have h4 := hi
          conv at h4 => rw [hdecomp]
          simpa using h4
        exact Nat.le_antisymm (Nat.lt_succ_iff.mp hlt) (Nat.le_of_not_lt hid)
      have hwx : w = c.getLast hne := by
        have h2 : c.get? i = some (c.getLast hne) := by
          conv_lhs => rw [hdecomp]
          rw [hieq]
          exact List.get?_concat_length _ _
        rw [hw] at h2
        exact Option.some_injective _ h2
      refine ⟨{ c.getLast hne with end_ts := some cts }, ?_, ?_, ?_⟩
      · have h5 : (c.dropLast ++
            [{ c.getLast hne with end_ts := some cts }] ++
            [(⟨v, cts, none, tid⟩ : Version V)]).get? i =
            (c.dropLast ++
              [{ c.getLast hne with end_ts := some cts }]).get? i :=
          List.get?_append (by simp; omega)
        rw [h5, hieq]
        exact List.get?_concat_length _ _
      · rw [hwx]; rfl
      · refine Or.inr ?_
        rw [hwx]
        exact hlo _ (List.getLast?_eq_getLast_of_ne_nil hne)

theorem applyWrites_chainMono {V : Type} (ws : List (Nat × V)) (tid n : Nat) :
    ∀ (r : MRecords V), (∀ k, chainMid (chainOf r k) n) →
      ∀ k, chainMono (chainOf r k) (chainOf (applyWrites r ws tid n) k) := by
  induction ws with
  | nil => intro r _ k; exact chainMono_refl _
  | cons kv rest ih =>
    intro r h k
    rw [applyWrites_cons]
    have hmid : ∀ k', chainMid (chainOf (applyWrite r tid n kv) k') n := by
      intro k'
      by_cases hk' : k' = kv.1
      · subst hk'
        rw [chainOf_applyWrite_self]
        exact applyChain_chainMid (h _) _ _
      · rw [chainOf_applyWrite_ne _ _ _ _ hk']
        exact h k'
    have hstep : chainMono (chainOf r k) (chainOf (applyWrite r tid n kv) k) := by
      by_cases hk : k = kv.1
      · subst hk
        rw [chainOf_applyWrite_self]
        exact applyChain_chainMono (h _).2.2.2 _ _ _
      · rw [chainOf_applyWrite_ne _ _ _ _ hk]
        exact chainMono_refl _
    exact chainMono_trans hstep (ih _ hmid k)

/-! ### Record-store effects of the validation loops -/

theorem validateGo_chainOf {V : Type} (ts : Nat) (rs : List (Nat × Nat)) :
    ∀ (r : MRecords V) (k : Nat), chainOf (MVOCC.validateGo ts r rs).1 k = chainOf r k := by
  induction rs with
  | nil => intro r k; rfl
  | cons ki rest ih =>
    intro r k
    obtain ⟨kk, idx⟩ := ki
    rw [MVOCC.validateGo]
    split
    · rw [ih, chainOf_touch]
    · rw [ih, chainOf_touch]
    · split
      · exact chainOf_touch r kk k
      · split
        · split
          · exact chainOf_touch r kk k
          · rw [ih, chainOf_touch]
        · rw [ih, chainOf_touch]

theorem validateGo_contains_mono {V : Type} (ts : Nat) (rs : List (Nat × Nat)) :
    ∀ (r : MRecords V) (k : Nat), containsKey r k = true →
      containsKey (MVOCC.validateGo ts r rs).1 k = true := by
  induction rs with
  | nil => intro r k h; exact h
  | cons ki rest ih =>
    intro r k h
    obtain ⟨kk, idx⟩ := ki
    rw [MVOCC.validateGo]
    split
    · exact ih _ _ (containsKey_touch_mono h)
    · exact ih _ _ (containsKey_touch_mono h)
    · split
      · exact containsKey_touch_mono h
      · split
        · split
          · exact containsKey_touch_mono h
          · exact ih _ _ (containsKey_touch_mono h)
        · exact ih _ _ (containsKey_touch_mono h)

theorem validateGo_records_id {V : Type} (ts : Nat) (rs : List (Nat × Nat)) :
    ∀ (r : MRecords V), (∀ ki ∈ rs, containsKey r ki.1 = true) →
      (MVOCC.validateGo ts r rs).1 = r := by
  induction rs with
  | nil => intro r _; rfl
  | cons ki rest ih =>
    intro r h
    obtain ⟨kk, idx⟩ := ki
    have ht : touch r kk = r := touch_of_contains (h (kk, idx) (by simp))
    have hrest : ∀ ki ∈ rest, containsKey r ki.1 = true :=
      fun ki hki => h ki (List.mem_cons_of_mem _ hki)
    rw [MVOCC.validateGo]
    split
    · rw [ht]; exact ih r hrest
    · rw [ht]; exact ih r hrest
    · split
      · exact ht
      · split
        · split
          · exact ht
          · rw [ht]; exact ih r hrest
        · rw [ht]; exact ih r hrest

theorem checkGo_chainOf {V : Type} [DecidableEq V] (rs : List (Nat × Nat)) :
    ∀ (r : MRecords V) (k : Nat), chainOf (MVCC.checkGo r rs).1 k = chainOf r k := by
  induction rs with
  | nil => intro r k; rfl
  | cons ki rest ih =>
    intro r k
    obtain ⟨kk, idx⟩ := ki
    rw [MVCC.checkGo]
    split
    · rw [ih, chainOf_touch]
    · rw [ih, chainOf_touch]
    · split
      · rw [ih, chainOf_touch]
      · exact chainOf_touch r kk k

theorem checkGo_contains_mono {V : Type} [DecidableEq V]
    (rs : List (Nat × Nat)) :
    ∀ (r : MRecords V) (k : Nat), containsKey r k = true →
      containsKey (MVCC.checkGo r rs).1 k = true := by
  induction rs with
  | nil => intro r k h; exact h
  | cons ki rest ih =>
    intro r k h
    obtain ⟨kk, idx⟩ := ki
    rw [MVCC.checkGo]
    split
    · exact ih _ _ (containsKey_touch_mono h)
    · exact ih _ _ (containsKey_touch_mono h)
    · split
      · exact ih _ _ (containsKey_touch_mono h)
      · exact containsKey_touch_mono h

theorem checkGo_records_id {V : Type} [DecidableEq V]
    (rs : List (Nat × Nat)) :
    ∀ (r : MRecords V), (∀ ki ∈ rs, containsKey r ki.1 = true) →
      (MVCC.checkGo r rs).1 = r := by
  induction rs with
  | nil => intro r _; rfl
  | cons ki rest ih =>
    intro r h
    obtain ⟨kk, idx⟩ := ki
    have ht : touch r kk = r := touch_of_contains (h (kk, idx) (by simp))
    have hrest : ∀ ki ∈ rest, containsKey r ki.1 = true :=
      fun ki hki => h ki (List.mem_cons_of_mem _ hki)
    rw [MVCC.checkGo]
    split
    · rw [ht]; exact ih r hrest
    · rw [ht]; exact ih r hrest
    · split
      · rw [ht]; exact ih r hrest
      · exact ht

/-! ### Preservation of the global invariant -/

theorem inv_init {V : Type} : Inv (MInit V) := by
  constructor
  · intro k
    exact chainInv_nil _
  · intro t tx h
    simp [MInit, alookup] at h

theorem inv_begin {V : Type} {s : MState V} (h : Inv s) :
    Inv (mNewTransaction s).2 := by
  obtain ⟨hch, htx⟩ := h
  constructor
  · intro k; exact hch k
  · intro t tx hlook
    rcases alookup_aset_cases hlook with ⟨hteq, htxeq⟩ | hold
    · subst htxeq
      exact ⟨Nat.le_refl _, fun ki hki => by simp at hki⟩
    · exact htx t tx hold

theorem inv_mWrite {V : Type} {s s' : MState V} {tid k : Nat} {v : V}
    (h : Inv s) (hw : mWrite s tid k v = some s') : Inv s' := by
  rw [mWrite] at hw
  cases hl : alookup s.transactions tid with
  | none => rw [hl] at hw; exact Option.noConfusion hw
  | some tx =>
    rw [hl] at hw
    cases hw
    obtain ⟨hch, htx⟩ := h
    constructor
    · intro k'; exact hch k'
    · intro t tx' hlook
      rcases alookup_aset_cases hlook with ⟨hteq, htxeq⟩ | hold
      · subst htxeq
        exact htx tid tx hl
      · exact htx t tx' hold

theorem inv_read_mvocc {V : Type} {s : MState V} {tid k : Nat}
    {p : MState V × Option V} (h : Inv s)
    (hr : MVOCC.read s tid k = some p) : Inv p.1 := by
  obtain ⟨hch, htx⟩ := h
  simp only [MVOCC.read] at hr
  by_cases hc : (chainOf (touch s.records k) k).isEmpty = true
  · rw [if_pos hc] at hr
    cases hr
    constructor
    · intro k'
      rw [chainOf_touch]
      exact hch k'
    · intro t tx hlook
      refine ⟨(htx t tx hlook).1, ?_⟩
      intro ki hki
      obtain ⟨h1, h2⟩ := (htx t tx hlook).2 ki hki
      exact ⟨containsKey_touch_mono h1, by rw [chainOf_touch]; exact h2⟩
  · rw [if_neg hc] at hr
    split at hr
    · exact Option.noConfusion hr
    · rename_i tx hl
      split at hr
      · cases hr
        constructor
        · intro k'
          rw [chainOf_touch]
          exact hch k'
        · intro t tx' hlook
          refine ⟨(htx t tx' hlook).1, ?_⟩
          intro ki hki
          obtain ⟨h1, h2⟩ := (htx t tx' hlook).2 ki hki
          exact ⟨containsKey_touch_mono h1, by rw [chainOf_touch]; exact h2⟩
      · rename_i q hf
        cases hr
        obtain ⟨hfl, hfg⟩ := findVisible_lt _ _ q.1 q.2 (by rw [hf])
        constructor
        · intro k'
          rw [chainOf_touch]
          exact hch k'
        · intro t tx' hlook
          rcases alookup_aset_cases hlook with ⟨hteq, htxeq⟩ | hold
          · subst htxeq
            refine ⟨(htx tid tx hl).1, ?_⟩
            intro ki hki
            rcases List.mem_append.mp hki with hkiold | hkinew
            · obtain ⟨h1, h2⟩ := (htx tid tx hl).2 ki hkiold
              exact ⟨containsKey_touch_mono h1, by rw [chainOf_touch]; exact h2⟩
            · simp at hkinew
              subst hkinew
              exact ⟨containsKey_touch_self _ _, hfl⟩
          · refine ⟨(htx t tx' hold).1, ?_⟩
            intro ki hki
            obtain ⟨h1, h2⟩ := (htx t tx' hold).2 ki hki
            exact ⟨containsKey_touch_mono h1, by rw [chainOf_touch]; exact h2⟩

theorem inv_read_mvcc {V : Type} {s : MState V} {tid k : Nat}
    {p : MState V × Option V} (h : Inv s)
    (hr : MVCC.read s tid k = some p) : Inv p.1 := by
  obtain ⟨hch, htx⟩ := h
  simp only [MVCC.read] at hr
  by_cases hc : (chainOf (touch s.records k) k).isEmpty = true
  · rw [if_pos hc] at hr
    cases hr
    constructor
    · intro k'
      rw [chainOf_touch]
      exact hch k'
    · intro t tx hlook
      refine ⟨(htx t tx hlook).1, ?_⟩
      intro ki hki
      obtain ⟨h1, h2⟩ := (htx t tx hlook).2 ki hki
      exact ⟨containsKey_touch_mono h1, by rw [chainOf_touch]; exact h2⟩
  · rw [if_neg hc] at hr
    split at hr
    · exact Option.noConfusion hr
    · rename_i tx hl
      split at hr
      · cases hr
        constructor
        · intro k'
          rw [chainOf_touch]
          exact hch k'
        · intro t tx' hlook
          refine ⟨(htx t tx' hlook).1, ?_⟩
          intro ki hki
          obtain ⟨h1, h2⟩ := (htx t tx' hlook).2 ki hki
          exact ⟨containsKey_touch_mono h1, by rw [chainOf_touch]; exact h2⟩
      · rename_i q hf
        cases hr
        obtain ⟨hfl, hfg⟩ := findVisible_lt _ _ q.1 q.2 (by rw [hf])
        constructor
        · intro k'
          rw [chainOf_touch]
          exact hch k'
        · intro t tx' hlook
          rcases alookup_aset_cases hlook with ⟨hteq, htxeq⟩ | hold
          · subst htxeq
            refine ⟨(htx tid tx hl).1, ?_⟩
            intro ki hki
            rcases mem_aset hki with hkinew | hkiold
            · subst hkinew
              exact ⟨containsKey_touch_self _ _, hfl⟩
            · obtain ⟨h1, h2⟩ := (htx tid tx hl).2 ki hkiold
              exact ⟨containsKey_touch_mono h1, by rw [chainOf_touch]; exact h2⟩
          · refine ⟨(htx t tx' hold).1, ?_⟩
            intro ki hki
            obtain ⟨h1, h2⟩ := (htx t tx' hold).2 ki hki
            exact ⟨containsKey_touch_mono h1, by rw [chainOf_touch]; exact h2⟩

theorem inv_commit_apply {V : Type} {s : MState V} {r1 : MRecords V}
    (ws : List (Nat × V)) (tid0 t : Nat) (h : Inv s)
    (hch1 : ∀ k, chainOf r1 k = chainOf s.records k)
    (hck1 : ∀ k, containsKey s.records k = true → containsKey r1 k = true) :
    Inv { s with
            records := applyWrites r1 ws tid0 s.commit_log.length,
            commit_log := s.commit_log ++ [t] } := by
  obtain ⟨hch, htx⟩ := h
  have hmid : ∀ k, chainMid (chainOf r1 k) s.commit_log.length := by
    intro k
    rw [hch1]
    exact chainInv_to_chainMid (hch k)
  constructor
  · intro k
    have hm := applyWrites_chainMid ws tid0 s.commit_log.length r1 hmid k
    have hlen : (s.commit_log ++ [t]).length = s.commit_log.length + 1 := by
      simp
    rw [hlen]
    exact chainMid_to_chainInv_succ hm
  · intro t' tx hlook
    refine ⟨?_, ?_⟩
    · exact Nat.le_trans (htx t' tx hlook).1 (by simp)
    · intro ki hki
      obtain ⟨h1, h2⟩ := (htx t' tx hlook).2 ki hki
      refine ⟨containsKey_applyWrites_mono ws (hck1 _ h1), ?_⟩
      calc ki.2 < (chainOf s.records ki.1).length := h2
        _ = (chainOf r1 ki.1).length := by rw [hch1]
        _ ≤ _ := chainOf_applyWrites_length ws tid0 _ r1 ki.1

theorem inv_commit_mvocc {V : Type} {s : MState V} {tid : Nat}
    {p : MState V × Bool} (h : Inv s)
    (hc : MVOCC.commit s tid = some p) : Inv p.1 := by
  rw [MVOCC.commit] at hc
  split at hc
  · exact Option.noConfusion hc
  · rename_i tx hl
    split at hc
    · cases hc
      exact inv_commit_apply tx.write_set tid tid h
        (fun k => validateGo_chainOf _ _ _ k)
        (fun k hk => validateGo_contains_mono _ _ _ k hk)
    · cases hc
      obtain ⟨hch, htx⟩ := h
      constructor
      · intro k
        rw [validateGo_chainOf]
        exact hch k
      · intro t tx' hlook
        refine ⟨(htx t tx' hlook).1, ?_⟩
        intro ki hki
        obtain ⟨h1, h2⟩ := (htx t tx' hlook).2 ki hki
        exact ⟨validateGo_contains_mono _ _ _ _ h1,
          by rw [validateGo_chainOf]; exact h2⟩

theorem inv_commit_mvcc {V : Type} [DecidableEq V] {s : MState V} {tid : Nat}
    {p : MState V × Bool} (h : Inv s)
    (hc : MVCC.commit s tid = some p) : Inv p.1 := by
  rw [MVCC.commit] at hc
  split at hc
  · exact Option.noConfusion hc
  · rename_i tx hl
    split at hc
    · cases hc
      exact inv_commit_apply tx.write_set tid tid h
        (fun k => checkGo_chainOf _ _ k)
        (fun k hk => checkGo_contains_mono _ _ k hk)
    · cases hc
      obtain ⟨hch, htx⟩ := h
      constructor
      · intro k
        rw [checkGo_chainOf]
        exact hch k
      · intro t tx' hlook
        refine ⟨(htx t tx' hlook).1, ?_⟩
        intro ki hki
        obtain ⟨h1, h2⟩ := (htx t tx' hlook).2 ki hki
        exact ⟨checkGo_contains_mono _ _ _ h1,
          by rw [checkGo_chainOf]; exact h2⟩

theorem inv_step_mvocc {V : Type} {s s' : MState V} {op : Op V} (h : Inv s)
    (hs : MVOCC.step s op = some s') : Inv s' := by
  cases op with
  | beginOp =>
    rw [MVOCC.step] at hs
    cases hs
    exact inv_begin h
  | readOp t k =>
    rw [MVOCC.step] at hs
    cases hr : MVOCC.read s t k with
    | none => rw [hr] at hs; exact Option.noConfusion hs
    | some p =>
      rw [hr, Option.map_some'] at hs
      cases hs
      exact inv_read_mvocc h hr
  | writeOp t k v =>
    rw [MVOCC.step] at hs
    exact inv_mWrite h hs
  | commitOp t =>
    rw [MVOCC.step] at hs
    cases hcm : MVOCC.commit s t with
    | none => rw [hcm] at hs; exact Option.noConfusion hs
    | some p =>
      rw [hcm, Option.map_some'] at hs
      cases hs
      exact inv_commit_mvocc h hcm

theorem inv_step_mvcc {V : Type} [DecidableEq V] {s s' : MState V} {op : Op V}
    (h : Inv s) (hs : MVCC.step s op = some s') : Inv s' := by
  cases op with
  | beginOp =>
    rw [MVCC.step] at hs
    cases hs
    exact inv_begin h
  | readOp t k =>
    rw [MVCC.step] at hs
    cases hr : MVCC.read s t k with
    | none => rw [hr] at hs; exact Option.noConfusion hs
    | some p =>
      rw [hr, Option.map_some'] at hs
      cases hs
      exact inv_read_mvcc h hr
  | writeOp t k v =>
    rw [MVCC.step] at hs
    exact inv_mWrite h hs
  | commitOp t =>
    rw [MVCC.step] at hs
    cases hcm : MVCC.commit s t with
    | none => rw [hcm] at hs; exact Option.noConfusion hs
    | some p =>
      rw [hcm, Option.map_some'] at hs
      cases hs
      exact inv_commit_mvcc h hcm

theorem inv_run_mvocc {V : Type} (ops : List (Op V)) :
    ∀ {s s' : MState V}, Inv s → runWith MVOCC.step s ops = some s' →
      Inv s' := by
  induction ops with
  | nil =>
    intro s s' h hr
    rw [runWith] at hr
    cases hr
    exact h
  | cons op rest ih =>
    intro s s' h hr
    rw [runWith] at hr
    cases hst : MVOCC.step s op with
    | none => rw [hst] at hr; exact Option.noConfusion hr
    | some s1 =>
      rw [hst] at hr
      exact ih (inv_step_mvocc h hst) hr

theorem inv_run_mvcc {V : Type} [DecidableEq V] (ops : List (Op V)) :
    ∀ {s s' : MState V}, Inv s → runWith MVCC.step s ops = some s' →
      Inv s' := by
  induction ops with
  | nil =>
    intro s s' h hr
    rw [runWith] at hr
    cases hr
    exact h
  | cons op rest ih =>
    intro s s' h hr
    rw [runWith] at hr
    cases hst : MVCC.step s op with
    | none => rw [hst] at hr; exact Option.noConfusion hr
    | some s1 =>
      rw [hst] at hr
      exact ih (inv_step_mvcc h hst) hr

theorem reach_inv_mvocc {V : Type} {s : MState V} (h : MVOCC.Reach s) :
    Inv s := by
  obtain ⟨ops, hr⟩ := h
  exact inv_run_mvocc ops inv_init hr

theorem reach_inv_mvcc {V : Type} [DecidableEq V] {s : MState V}
    (h : MVCC.Reach s) : Inv s := by
  obtain ⟨ops, hr⟩ := h
  exact inv_run_mvcc ops inv_init hr

/-! ### Characterizations of the state effects of `read` and `commit` -/

theorem read_state_mvocc {V : Type} {s : MState V} {tid k : Nat}
    {p : MState V × Option V} (hr : MVOCC.read s tid k = some p) :
    p.1.records = touch s.records k ∧ p.1.commit_log = s.commit_log := by
  simp only [MVOCC.read] at hr
  by_cases hc : (chainOf (touch s.records k) k).isEmpty = true
  · rw [if_pos hc] at hr
    cases hr
    exact ⟨rfl, rfl⟩
  · rw [if_neg hc] at hr
    split at hr
    · exact Option.noConfusion hr
    · split at hr
      · cases hr
        exact ⟨rfl, rfl⟩
      · cases hr
        exact ⟨rfl, rfl⟩

theorem read_state_mvcc {V : Type} {s : MState V} {tid k : Nat}
    {p : MState V × Option V} (hr : MVCC.read s tid k = some p) :
    p.1.records = touch s.records k ∧ p.1.commit_log = s.commit_log := by
  simp only [MVCC.read] at hr
  by_cases hc : (chainOf (touch s.records k) k).isEmpty = true
  · rw [if_pos hc] at hr
    cases hr
    exact ⟨rfl, rfl⟩
  · rw [if_neg hc] at hr
    split at hr
    · exact Option.noConfusion hr
    · split at hr
      · cases hr
        exact ⟨rfl, rfl⟩
      · cases hr
        exact ⟨rfl, rfl⟩

theorem commit_cases_mvocc {V : Type} {s : MState V} {tid : Nat}
    {p : MState V × Bool} (hc : MVOCC.commit s tid = some p) :
    ∃ tx, alookup s.transactions tid = some tx ∧
      p.1.transactions = s.transactions ∧ p.1.next_tid = s.next_tid ∧
      ((p.2 = false ∧
        (MVOCC.validateGo s.commit_log.length s.records tx.read_set).2 = false ∧
        p.1.records =
          (MVOCC.validateGo s.commit_log.length s.records tx.read_set).1 ∧
        p.1.commit_log = s.commit_log) ∨
       (p.2 = true ∧
        (MVOCC.validateGo s.commit_log.length s.records tx.read_set).2 = true ∧
        p.1.records =
          applyWrites
            (MVOCC.validateGo s.commit_log.length s.records tx.read_set).1
            tx.write_set tid s.commit_log.length ∧
        p.1.commit_log = s.commit_log ++ [tid])) := by
  rw [MVOCC.commit] at hc
  split at hc
  · exact Option.noConfusion hc
  · rename_i tx hl
    split at hc
    · rename_i hv
      cases hc
      exact ⟨tx, hl, rfl, rfl, Or.inr ⟨rfl, hv, rfl, rfl⟩⟩
    · rename_i hv
      cases hc
      exact ⟨tx, hl, rfl, rfl,
        Or.inl ⟨rfl, Bool.eq_false_iff.mpr hv, rfl, rfl⟩⟩

theorem commit_cases_mvcc {V : Type} [DecidableEq V] {s : MState V}
    {tid : Nat} {p : MState V × Bool} (hc : MVCC.commit s tid = some p) :
    ∃ tx, alookup s.transactions tid = some tx ∧
      p.1.transactions = s.transactions ∧ p.1.next_tid = s.next_tid ∧
      ((p.2 = false ∧ (MVCC.checkGo s.records tx.read_set).2 = false ∧
        p.1.records = (MVCC.checkGo s.records tx.read_set).1 ∧
        p.1.commit_log = s.commit_log) ∨
       (p.2 = true ∧ (MVCC.checkGo s.records tx.read_set).2 = true ∧
        p.1.records =
          applyWrites (MVCC.checkGo s.records tx.read_set).1
            tx.write_set tid s.commit_log.length ∧
        p.1.commit_log = s.commit_log ++ [tid])) := by
  rw [MVCC.commit] at hc
  split at hc
  · exact Option.noConfusion hc
  · rename_i tx hl
    split at hc
    · rename_i hv
      cases hc
      exact ⟨tx, hl, rfl, rfl, Or.inr ⟨rfl, hv, rfl, rfl⟩⟩
    · rename_i hv
      cases hc
      exact ⟨tx, hl, rfl, rfl,
        Or.inl ⟨rfl, Bool.eq_false_iff.mpr hv, rfl, rfl⟩⟩

/-! ### Chain evolution along a run -/

theorem applyChain_lastOpen {V : Type} (c : List (Version V)) (v : V)
    (cts tid : Nat) : lastOpen (applyChain c v cts tid) := by
  intro w hw
  rw [applyChain, List.getLast?_concat] at hw
  cases hw
  rfl

theorem mono_step_mvocc {V : Type} {s s' : MState V} {op : Op V} (h : Inv s)
    (hs : MVOCC.step s op = some s') :
    (∀ k, chainMono (chainOf s.records k) (chainOf s'.records k)) ∧
      s.commit_log.length ≤ s'.commit_log.length := by
  cases op with
  | beginOp =>
    rw [MVOCC.step] at hs
    cases hs
    exact ⟨fun k => chainMono_refl _, Nat.le_refl _⟩
  | readOp t k =>
    rw [MVOCC.step] at hs
    cases hr : MVOCC.read s t k with
    | none => rw [hr] at hs; exact Option.noConfusion hs
    | some p =>
      rw [hr, Option.map_some'] at hs
      cases hs
      obtain ⟨h1, h2⟩ := read_state_mvocc hr
      constructor
      · intro k'
        rw [h1, chainOf_touch]
        exact chainMono_refl _
      · rw [h2]
  | writeOp t k v =>
    rw [MVOCC.step] at hs
    rw [mWrite] at hs
    cases hl : alookup s.transactions t with
    | none => rw [hl] at hs; exact Option.noConfusion hs
    | some tx =>
      rw [hl] at hs
      cases hs
      exact ⟨fun k => chainMono_refl _, Nat.le_refl _⟩
  | commitOp t =>
    rw [MVOCC.step] at hs
    cases hcm : MVOCC.commit s t with
    | none => rw [hcm] at hs; exact Option.noConfusion hs
    | some p =>
      rw [hcm, Option.map_some'] at hs
      cases hs
      obtain ⟨tx, hl, _, _, hcase⟩ := commit_cases_mvocc hcm
      rcases hcase with ⟨_, _, hrec, hlog⟩ | ⟨_, _, hrec, hlog⟩
      · constructor
        · intro k'
          rw [hrec, validateGo_chainOf]
          exact chainMono_refl _
        · rw [hlog]
      · constructor
        · intro k'
          rw [hrec]
          have hmid : ∀ k'',
              chainMid
                (chainOf
                  (MVOCC.validateGo s.commit_log.length s.records
                    tx.read_set).1 k'')
                s.commit_log.length := by
            intro k''
            rw [validateGo_chainOf]
            exact chainInv_to_chainMid (h.1 k'')
          have := applyWrites_chainMono tx.write_set t s.commit_log.length _
            hmid k'
          rw [validateGo_chainOf] at this
          exact this
        · rw [hlog]
          simp

theorem mono_step_mvcc {V : Type} [DecidableEq V] {s s' : MState V}
    {op : Op V} (h : Inv s) (hs : MVCC.step s op = some s') :
    (∀ k, chainMono (chainOf s.records k) (chainOf s'.records k)) ∧
      s.commit_log.length ≤ s'.commit_log.length := by
  cases op with
  | beginOp =>
    rw [MVCC.step] at hs
    cases hs
    exact ⟨fun k => chainMono_refl _, Nat.le_refl _⟩
  | readOp t k =>
    rw [MVCC.step] at hs
    cases hr : MVCC.read s t k with
    | none => rw [hr] at hs; exact Option.noConfusion hs
    | some p =>
      rw [hr, Option.map_some'] at hs
      cases hs
      obtain ⟨h1, h2⟩ := read_state_mvcc hr
      constructor
      · intro k'
        rw [h1, chainOf_touch]
        exact chainMono_refl _
      · rw [h2]
  | writeOp t k v =>
    rw [MVCC.step] at hs
    rw [mWrite] at hs
    cases hl : alookup s.transactions t with
    | none => rw [hl] at hs; exact Option.noConfusion hs
    | some tx =>
      rw [hl] at hs
      cases hs
      exact ⟨fun k => chainMono_refl _, Nat.le_refl _⟩
  | commitOp t =>
    rw [MVCC.step] at hs
    cases hcm : MVCC.commit s t with
    | none => rw [hcm] at hs; exact Option.noConfusion hs
    | some p =>
      rw [hcm, Option.map_some'] at hs
      cases hs
      obtain ⟨tx, hl, _, _, hcase⟩ := commit_cases_mvcc hcm
      rcases hcase with ⟨_, _, hrec, hlog⟩ | ⟨_, _, hrec, hlog⟩
      · constructor
        · intro k'
          rw [hrec, checkGo_chainOf]
          exact chainMono_refl _
        · rw [hlog]
      · constructor
        · intro k'
          rw [hrec]
          have hmid : ∀ k'',
              chainMid
                (chainOf (MVCC.checkGo s.records tx.read_set).1 k'')
                s.commit_log.length := by
            intro k''
            rw [checkGo_chainOf]
            exact chainInv_to_chainMid (h.1 k'')
          have := applyWrites_chainMono tx.write_set t s.commit_log.length _
            hmid k'
          rw [checkGo_chainOf] at this
          exact this
        · rw [hlog]
          simp

theorem mono_run_mvocc {V : Type} (ops : List (Op V)) :
    ∀ {s s' : MState V}, Inv s → runWith MVOCC.step s ops = some s' →
      (∀ k, chainMono (chainOf s.records k) (chainOf s'.records k)) ∧
        s.commit_log.length ≤ s'.commit_log.length := by
  induction ops with
  | nil =>
    intro s s' h hr
    rw [runWith] at hr
    cases hr
    exact ⟨fun k => chainMono_refl _, Nat.le_refl _⟩
  | cons op rest ih =>
    intro s s' h hr
    rw [runWith] at hr
    cases hst : MVOCC.step s op with
    | none => rw [hst] at hr; exact Option.noConfusion hr
    | some s1 =>
      rw [hst] at hr
      obtain ⟨hm1, hl1⟩ := mono_step_mvocc h hst
      obtain ⟨hm2, hl2⟩ := ih (inv_step_mvocc h hst) hr
      exact ⟨fun k => chainMono_trans (hm1 k) (hm2 k), Nat.le_trans hl1 hl2⟩

/-! ### Stability of the value visible at a fixed begin timestamp -/

theorem findVisibleVal_applyChain {V : Type} {c : List (Version V)}
    (hlo : lastOpen c) {b cts : Nat} (hb : b < cts) (v : V) (tid : Nat) :
    (findVisible (applyChain c v cts tid) b).map (fun p => p.2.value) =
      (findVisible c b).map (fun p => p.2.value) := by
  have hnv : visibleB (⟨v, cts, none, tid⟩ : Version V) b = false := by
    simp [visibleB, Nat.not_le.mpr hb]
  rw [applyChain, findVisible_concat, hnv, if_neg (by simp)]
  by_cases hc : c.isEmpty = true
  · rw [if_pos hc]
  · rw [if_neg hc]
    have hne : c ≠ [] := fun h0 => hc (by simp [h0])
    have hdecomp : c = c.dropLast ++ [c.getLast hne] :=
      (List.dropLast_append_getLast hne).symm
    have hxopen : (c.getLast hne).end_ts = none :=
      hlo _ (List.getLast?_eq_getLast_of_ne_nil hne)
    rw [closeLast_of_ne_nil _ hne]
    conv_rhs => rw [hdecomp]
    rw [findVisible_concat, findVisible_concat]
    have hvis : visibleB { c.getLast hne with end_ts := some cts } b =
        visibleB (c.getLast hne) b := by
      rw [visibleB, visibleB, hxopen]
      simp [Nat.lt_of_lt_of_le hb (Nat.le_refl cts), hb]
    by_cases hv : visibleB (c.getLast hne) b = true
    · rw [hvis.trans hv, if_pos hv]
      simp
    · rw [if_neg (by rw [hvis]; exact hv), if_neg hv]

theorem readVal_applyWrites {V : Type} (ws : List (Nat × V))
    (tid cts b : Nat) (hb : b < cts) :
    ∀ (r : MRecords V), (∀ k, lastOpen (chainOf r k)) →
      (∀ k, lastOpen (chainOf (applyWrites r ws tid cts) k)) ∧
      ∀ k, (findVisible (chainOf (applyWrites r ws tid cts) k) b).map
          (fun p => p.2.value) =
        (findVisible (chainOf r k) b).map (fun p => p.2.value) := by
  induction ws with
  | nil => intro r h; exact ⟨h, fun k => rfl⟩
  | cons kv rest ih =>
    intro r h
    rw [applyWrites_cons]
    have hlo1 : ∀ k, lastOpen (chainOf (applyWrite r tid cts kv) k) := by
      intro k
      by_cases hk : k = kv.1
      · subst hk
        rw [chainOf_applyWrite_self]
        exact applyChain_lastOpen _ _ _ _
      · rw [chainOf_applyWrite_ne _ _ _ _ hk]
        exact h k
    obtain ⟨hlo2, hval2⟩ := ih (applyWrite r tid cts kv) hlo1
    refine ⟨hlo2, ?_⟩
    intro k
    rw [hval2 k]
    by_cases hk : k = kv.1
    · subst hk
      rw [chainOf_applyWrite_self]
      exact findVisibleVal_applyChain (h _) hb _ _
    · rw [chainOf_applyWrite_ne _ _ _ _ hk]

theorem readVal_step_mvcc {V : Type} [DecidableEq V] {s s' : MState V}
    {op : Op V} {b : Nat} (h : Inv s) (hb : b < s.commit_log.length)
    (hs : MVCC.step s op = some s') :
    (∀ k, readVal s' b k = readVal s b k) ∧
      s.commit_log.length ≤ s'.commit_log.length := by
  cases op with
  | beginOp =>
    rw [MVCC.step] at hs
    cases hs
    exact ⟨fun k => rfl, Nat.le_refl _⟩
  | readOp t k =>
    rw [MVCC.step] at hs
    cases hr : MVCC.read s t k with
    | none => rw [hr] at hs; exact Option.noConfusion hs
    | some p =>
      rw [hr, Option.map_some'] at hs
      cases hs
      obtain ⟨h1, h2⟩ := read_state_mvcc hr
      refine ⟨?_, by rw [h2]⟩
      intro k'
      rw [readVal, readVal, h1, chainOf_touch]
  | writeOp t k v =>
    rw [MVCC.step] at hs
    rw [mWrite] at hs
    cases hl : alookup s.transactions t with
    | none => rw [hl] at hs; exact Option.noConfusion hs
    | some tx =>
      rw [hl] at hs
      cases hs
      exact ⟨fun k => rfl, Nat.le_refl _⟩
  | commitOp t =>
    rw [MVCC.step] at hs
    cases hcm : MVCC.commit s t with
    | none => rw [hcm] at hs; exact Option.noConfusion hs
    | some p =>
      rw [hcm, Option.map_some'] at hs
      cases hs
      obtain ⟨tx, hl, _, _, hcase⟩ := commit_cases_mvcc hcm
      rcases hcase with ⟨_, _, hrec, hlog⟩ | ⟨_, _, hrec, hlog⟩
      · refine ⟨?_, by rw [hlog]⟩
        intro k'
        rw [readVal, readVal, hrec, checkGo_chainOf]
      · have hlo : ∀ k,
            lastOpen (chainOf (MVCC.checkGo s.records tx.read_set).1 k) := by
          intro k
          rw [checkGo_chainOf]
          exact (h.1 k).2.2.2
        obtain ⟨_, hval⟩ :=
          readVal_applyWrites tx.write_set t s.commit_log.length b hb _ hlo
        refine ⟨?_, by rw [hlog]; simp⟩
        intro k'
        rw [readVal, readVal, hrec, hval k', checkGo_chainOf]

theorem readVal_run_mvcc {V : Type} [DecidableEq V] (ops : List (Op V)) :
    ∀ {s s' : MState V} {b : Nat}, Inv s → b < s.commit_log.length →
      runWith MVCC.step s ops = some s' →
      ∀ k, readVal s' b k = readVal s b k := by
  induction ops with
  | nil =>
    intro s s' b _ _ hr k
    rw [runWith] at hr
    cases hr
    rfl
  | cons op rest ih =>
    intro s s' b h hb hr k
    rw [runWith] at hr
    cases hst : MVCC.step s op with
    | none => rw [hst] at hr; exact Option.noConfusion hr
    | some s1 =>
      rw [hst] at hr
      obtain ⟨hv1, hl1⟩ := readVal_step_mvcc h hb hst
      have hb1 : b < s1.commit_log.length := Nat.lt_of_lt_of_le hb hl1
      rw [ih (inv_step_mvcc h hst) hb1 hr k, hv1 k]

theorem mono_run_mvcc {V : Type} [DecidableEq V] (ops : List (Op V)) :
    ∀ {s s' : MState V}, Inv s → runWith MVCC.step s ops = some s' →
      (∀ k, chainMono (chainOf s.records k) (chainOf s'.records k)) ∧
        s.commit_log.length ≤ s'.commit_log.length := by
  induction ops with
  | nil =>
    intro s s' h hr
    rw [runWith] at hr
    cases hr
    exact ⟨fun k => chainMono_refl _, Nat.le_refl _⟩
  | cons op rest ih =>
    intro s s' h hr
    rw [runWith] at hr
    cases hst : MVCC.step s op with
    | none => rw [hst] at hr; exact Option.noConfusion hr
    | some s1 =>
      rw [hst] at hr
      obtain ⟨hm1, hl1⟩ := mono_step_mvcc h hst
      obtain ⟨hm2, hl2⟩ := ih (inv_step_mvcc h hst) hr
      exact ⟨fun k => chainMono_trans (hm1 k) (hm2 k), Nat.le_trans hl1 hl2⟩

/-! ### Flat-variant lemmas -/

theorem alookup_mem {α : Type} {r : List (Nat × α)} {k : Nat} {v : α}
    (h : alookup r k = some v) : (k, v) ∈ r := by
  induction r with
  | nil => simp [alookup] at h
  | cons p rest ih =>
    obtain ⟨k0, w⟩ := p
    by_cases hk : k0 = k
    · subst hk
      rw [alookup, if_pos rfl] at h
      cases h
      simp
    · rw [alookup, if_neg hk] at h
      exact List.mem_cons_of_mem _ (ih h)

theorem alookup_applyAll_none {V : Type} (ws : List (Nat × V)) :
    ∀ (r : List (Nat × V)) (k : Nat), alookup ws.reverse k = none →
      alookup (OCC.applyAll r ws) k = alookup r k := by
  induction ws with
  | nil => intro r k _; rfl
  | cons kv rest ih =>
    intro r k h
    rw [List.reverse_cons] at h
    have hrl : alookup rest.reverse k = none := by
      cases hrl : alookup rest.reverse k with
      | none => rfl
      | some w =>
        rw [alookup_append_some _ hrl] at h
        exact Option.noConfusion h
    have hkv : ¬ kv.1 = k := by
      rw [alookup_append_none _ hrl] at h
      intro he
      rw [alookup, if_pos he] at h
      exact Option.noConfusion h
    have h1 : OCC.applyAll r (kv :: rest) =
        OCC.applyAll (aset r kv.1 kv.2) rest := rfl
    rw [h1, ih _ _ hrl, alookup_aset_ne _ _ _ _ (fun he => hkv he.symm)]

theorem alookup_applyAll_some {V : Type} (ws : List (Nat × V)) :
    ∀ (r : List (Nat × V)) (k : Nat) (v : V), alookup ws.reverse k = some v →
      alookup (OCC.applyAll r ws) k = some v := by
  induction ws with
  | nil => intro r k v h; simp [alookup] at h
  | cons kv rest ih =>
    intro r k v h
    rw [List.reverse_cons] at h
    have h1 : OCC.applyAll r (kv :: rest) =
        OCC.applyAll (aset r kv.1 kv.2) rest := rfl
    cases hrl : alookup rest.reverse k with
    | some w =>
      have := alookup_append_some ([kv]) hrl
      rw [this] at h
      cases h
      rw [h1]
      exact ih _ _ _ hrl
    | none =>
      rw [alookup_append_none _ hrl] at h
      have hkv : kv.1 = k := by
        by_cases he : kv.1 = k
        · exact he
        · rw [alookup, if_neg he] at h
          exact absurd h (by simp [alookup])
      rw [alookup, if_pos hkv] at h
      cases h
      rw [h1, alookup_applyAll_none rest _ _ hrl]
      subst hkv
      exact alookup_aset_self _ _ _

theorem commit_cases_occ {V : Type} [DecidableEq V] {s : OState V}
    {tid : Nat} {p : OState V × Bool} (hc : OCC.commit s tid = some p) :
    ∃ tx, alookup s.transactions tid = some tx ∧
      ((p.2 = false ∧ OCC.validateB s.records tx = false ∧ p.1 = s) ∨
       (p.2 = true ∧ OCC.validateB s.records tx = true ∧
        p.1.records = OCC.applyAll s.records tx.write_set ∧
        p.1.commit_log = s.commit_log ++ [tid] ∧
        p.1.transactions = s.transactions ∧ p.1.next_tid = s.next_tid)) := by
  rw [OCC.commit] at hc
  split at hc
  · exact Option.noConfusion hc
  · rename_i tx hl
    split at hc
    · rename_i hv
      cases hc
      exact ⟨tx, hl, Or.inr ⟨rfl, hv, rfl, rfl, rfl, rfl⟩⟩
    · rename_i hv
      cases hc
      exact ⟨tx, hl, Or.inl ⟨rfl, Bool.eq_false_iff.mpr hv, rfl⟩⟩

theorem validateB_false_iff {V : Type} [DecidableEq V]
    (r : List (Nat × V)) (tx : OTxn V) :
    OCC.validateB r tx = false ↔
      ∃ kv ∈ tx.read_set, alookup r kv.1 ≠ some kv.2 := by
  simp [OCC.validateB, List.all_eq_false]

/-! ### Equivalence of the implemented validations with the spec policy -/

theorem specConflict_cons {V : Type} [DecidableEq V] (r : MRecords V)
    (ts : Nat) (ki : Nat × Nat) (rest : List (Nat × Nat)) :
    specConflict r ts (ki :: rest) =
      (specConflictEntry r ts ki || specConflict r ts rest) := rfl

theorem specConflictEntry_of_get {V : Type} [DecidableEq V]
    {r : MRecords V} {ts : Nat} {k idx : Nat} {rv : Version V}
    (h : (chainOf r k).get? idx = some rv) :
    specConflictEntry r ts (k, idx) =
      (decide ((chainOf r k).getLast? ≠ some rv) ||
        endClosedB ts rv.end_ts) := by
  rw [specConflictEntry]
  split
  · rename_i hnone
    rw [h] at hnone
    exact Option.noConfusion hnone
  · rename_i rv' hsome
    rw [h] at hsome
    cases hsome
    rfl

theorem specConflict_congr {V : Type} [DecidableEq V] {r1 r2 : MRecords V}
    (ts : Nat) (rs : List (Nat × Nat))
    (h : ∀ k, chainOf r1 k = chainOf r2 k) :
    specConflict r1 ts rs = specConflict r2 ts rs := by
  induction rs with
  | nil => rfl
  | cons ki rest ih =>
    obtain ⟨k, idx⟩ := ki
    rw [specConflict_cons, specConflict_cons, ih]
    have he : specConflictEntry r1 ts (k, idx) =
        specConflictEntry r2 ts (k, idx) := by
      rw [specConflictEntry, specConflictEntry, h k]
    rw [he]

theorem validateGo_iff {V : Type} [DecidableEq V] (ts : Nat)
    (rs : List (Nat × Nat)) :
    ∀ (r : MRecords V),
      (∀ k, chainInv (chainOf r k) ts) →
      (∀ ki ∈ rs, containsKey r ki.1 = true ∧
        ki.2 < (chainOf r ki.1).length) →
      ((MVOCC.validateGo ts r rs).2 = false ↔
        specConflict r ts rs = true) := by
  induction rs with
  | nil =>
    intro r _ _
    constructor
    · intro h
      exact absurd h (by simp [MVOCC.validateGo])
    · intro h
      exact absurd h (by simp [specConflict])
  | cons ki rest ih =>
    intro r hinv hrs
    obtain ⟨k, idx⟩ := ki
    obtain ⟨hk, hidx0⟩ := hrs (k, idx) (by simp)
    have hidx : idx < (chainOf r k).length := hidx0
    have hne : chainOf r k ≠ [] := by
      intro h0
      rw [h0] at hidx
      exact Nat.not_lt_zero _ hidx
    have hrest : ∀ ki ∈ rest, containsKey (touch r k) ki.1 = true ∧
        ki.2 < (chainOf (touch r k) ki.1).length := by
      intro ki hki
      obtain ⟨h1, h2⟩ := hrs ki (List.mem_cons_of_mem _ hki)
      exact ⟨containsKey_touch_mono h1, by rw [chainOf_touch]; exact h2⟩
    have hinv' : ∀ k', chainInv (chainOf (touch r k) k') ts := by
      intro k'
      rw [chainOf_touch]
      exact hinv k'
    have hcongr : specConflict (touch r k) ts rest = specConflict r ts rest :=
      specConflict_congr ts rest fun k' => chainOf_touch r k k'
    obtain ⟨hsort, hbound, hclosed, hopen⟩ := hinv k
    rw [MVOCC.validateGo]
    split
    · rename_i heq
      rw [chainOf_touch, List.getLast?_eq_getLast_of_ne_nil hne] at heq
      exact Option.noConfusion heq
    · rename_i hG
      rw [chainOf_touch, List.get?_eq_get hidx] at hG
      exact Option.noConfusion hG
    · rename_i latest rv hL hG
      rw [chainOf_touch] at hL hG
      have hrvmem : rv ∈ chainOf r k := List.get?_mem hG
      rw [specConflict_cons, specConflictEntry_of_get hG]
      by_cases hb : rv.begin_ts < latest.begin_ts
      · rw [if_pos hb]
        have hlne : decide ((chainOf r k).getLast? ≠ some rv) = true := by
          rw [decide_eq_true_eq, hL]
          intro he
          have := Option.some_injective _ he
          rw [this] at hb
          exact Nat.lt_irrefl _ hb
        constructor
        · intro _
          rw [hlne]
          rfl
        · intro _
          rfl
      · rw [if_neg hb]
        split
        · rename_i e hE
          by_cases he : e ≤ ts
          · rw [if_pos he]
            constructor
            · intro _
              rw [hE]
              have hcl : endClosedB ts (some e) = true := by
                rw [endClosedB, decide_eq_true_eq]
                exact he
              rw [hcl]
              simp
            · intro _
              rfl
          · obtain ⟨_, hbb⟩ := hbound rv hrvmem
            exact absurd (Nat.le_of_lt (hbb e hE)) he
        · rename_i hE
          have hlat_eq : latest = rv := by
            by_cases hidx2 : idx = (chainOf r k).length - 1
            · subst hidx2
              have h1 : (chainOf r k).getLast? =
                  some ((chainOf r k).getLast hne) :=
                List.getLast?_eq_getLast_of_ne_nil hne
              rw [h1] at hL
              have h2 := Option.some_injective _ hL
              have h3 : (chainOf r k).getLast hne =
                  (chainOf r k).get ⟨(chainOf r k).length - 1, hidx⟩ := by
                rw [List.getLast_eq_get]
              have h4 : (chainOf r k).get? ((chainOf r k).length - 1) =
                  some ((chainOf r k).get
                    ⟨(chainOf r k).length - 1, hidx⟩) :=
                List.get?_eq_get hidx
              rw [hG] at h4
              have h5 := Option.some_injective _ h4
              rw [← h2, h3, ← h5]
            · have hidx3 : idx < (chainOf r k).length - 1 := by
                omega
              have hdecomp : chainOf r k =
                  (chainOf r k).dropLast ++ [(chainOf r k).getLast hne] :=
                (List.dropLast_append_getLast hne).symm
              have hdl : (chainOf r k).dropLast.get? idx = some rv := by
                have h6 : (chainOf r k).get? idx =
                    (chainOf r k).dropLast.get? idx := by
                  conv_lhs => rw [hdecomp]
                  exact List.get?_append (by
                    rw [List.length_dropLast]
                    exact hidx3)
                rw [← h6]
                exact hG
              have hmem : rv ∈ (chainOf r k).dropLast :=
                List.get?_mem hdl
              exact absurd hE (hclosed rv hmem)
          have hentry : (decide ((chainOf r k).getLast? ≠ some rv) ||
              endClosedB ts rv.end_ts) = false := by
            rw [hE, hL, hlat_eq]
            simp [endClosedB]
          rw [hentry]
          simp only [Bool.false_or]
          rw [← hcongr]
          exact ih (touch r k) hinv' hrest

theorem checkGo_iff {V : Type} [DecidableEq V] (ts : Nat)
    (rs : List (Nat × Nat)) :
    ∀ (r : MRecords V),
      (∀ k, chainInv (chainOf r k) ts) →
      (∀ ki ∈ rs, containsKey r ki.1 = true ∧
        ki.2 < (chainOf r ki.1).length) →
      ((MVCC.checkGo r rs).2 = false ↔ specConflict r ts rs = true) := by
  induction rs with
  | nil =>
    intro r _ _
    constructor
    · intro h
      exact absurd h (by simp [MVCC.checkGo])
    · intro h
      exact absurd h (by simp [specConflict])
  | cons ki rest ih =>
    intro r hinv hrs
    obtain ⟨k, idx⟩ := ki
    obtain ⟨hk, hidx0⟩ := hrs (k, idx) (by simp)
    have hidx : idx < (chainOf r k).length := hidx0
    have hne : chainOf r k ≠ [] := by
      intro h0
      rw [h0] at hidx
      exact Nat.not_lt_zero _ hidx
    have hrest : ∀ ki ∈ rest, containsKey (touch r k) ki.1 = true ∧
        ki.2 < (chainOf (touch r k) ki.1).length := by
      intro ki hki
      obtain ⟨h1, h2⟩ := hrs ki (List.mem_cons_of_mem _ hki)
      exact ⟨containsKey_touch_mono h1, by rw [chainOf_touch]; exact h2⟩
    have hinv' : ∀ k', chainInv (chainOf (touch r k) k') ts := by
      intro k'
      rw [chainOf_touch]
      exact hinv k'
    have hcongr : specConflict (touch r k) ts rest = specConflict r ts rest :=
      specConflict_congr ts rest fun k' => chainOf_touch r k k'
    obtain ⟨hsort, hbound, hclosed, hopen⟩ := hinv k
    rw [MVCC.checkGo]
    split
    · rename_i heq
      rw [chainOf_touch, List.getLast?_eq_getLast_of_ne_nil hne] at heq
      exact Option.noConfusion heq
    · rename_i hG
      rw [chainOf_touch, List.get?_eq_get hidx] at hG
      exact Option.noConfusion hG
    · rename_i latest rv hL hG
      rw [chainOf_touch] at hL hG
      rw [specConflict_cons, specConflictEntry_of_get hG]
      by_cases heq : latest = rv
      · rw [if_pos heq]
        have h1 : decide ((chainOf r k).getLast? ≠ some rv) = false := by
          rw [hL, heq]
          simp
        have h2 : endClosedB ts rv.end_ts = false := by
          rw [← heq, hopen latest hL]
          rfl
        rw [h1, h2]
        simp only [Bool.false_or]
        rw [← hcongr]
        exact ih (touch r k) hinv' hrest
      · rw [if_neg heq]
        have h1 : decide ((chainOf r k).getLast? ≠ some rv) = true := by
          rw [decide_eq_true_eq, hL]
          intro he
          exact heq (Option.some_injective _ he)
        constructor
        · intro _
          rw [h1]
          rfl
        · intro _
          rfl

/-! ## The claims -/

/-- Claim C9: in the concrete interleaving where `user_1` starts at Score
100 with an empty commit log, T1 reads 100, T2 reads 100, writes 120 and
commits (log length becomes 1), T1 (intending 150) gets `commit = false`
under the flat policy and under both multi-version variants, a fresh
transaction reads 120, writes 170 and commits, the final committed Score
is 170, and no state of the interleaving has a committed Score of 150. -/
theorem claim_C9 :
    (c9or1.2 = some 100 ∧ c9or2.2 = some 100 ∧
     OCC.commit c9o3 2 = some (c9oc2.1, true) ∧
     c9oc2.1.commit_log.length = 1 ∧
     OCC.commit c9o4 1 = some (c9oc1.1, false) ∧
     c9or3.2 = some 120 ∧
     OCC.commit c9o6 3 = some (c9oc3.1, true) ∧
     alookup c9oc3.1.records 1 = some 170 ∧
     c9oStates.map (fun st => alookup st.records 1) =
       [some 100, some 100, some 100, some 100, some 100, some 100,
        some 120, some 120, some 120, some 120, some 120, some 120,
        some 170] ∧
     c9oStates.all (fun st => !(alookup st.records 1 == some 150)) = true) ∧
    (c9mr1.2 = some 100 ∧ c9mr2.2 = some 100 ∧
     MVOCC.commit c9m3 2 = some (c9mc2.1, true) ∧
     c9mc2.1.commit_log.length = 1 ∧
     MVOCC.commit c9m4 1 = some (c9mc1.1, false) ∧
     c9mr3.2 = some 120 ∧
     MVOCC.commit c9m6 3 = some (c9mc3.1, true) ∧
     headVal c9mc3.1 1 = some 170 ∧
     c9mStates.map (fun st => headVal st 1) =
       [some 100, some 100, some 100, some 100, some 100, some 100,
        some 120, some 120, some 120, some 120, some 120, some 120,
        some 170] ∧
     c9mStates.all (fun st => !(headVal st 1 == some 150)) = true) ∧
    (c9vr1.2 = some 100 ∧ c9vr2.2 = some 100 ∧
     MVCC.commit c9v3 2 = some (c9vc2.1, true) ∧
     c9vc2.1.commit_log.length = 1 ∧
     MVCC.commit c9v4 1 = some (c9vc1.1, false) ∧
     c9vr3.2 = some 120 ∧
     MVCC.commit c9v6 3 = some (c9vc3.1, true) ∧
     headVal c9vc3.1 1 = some 170 ∧
     c9vStates.map (fun st => headVal st 1) =
       [some 100, some 100, some 100, some 100, some 100, some 100,
        some 120, some 120, some 120, some 120, some 120, some 120,
        some 170] ∧
     c9vStates.all (fun st => !(headVal st 1 == some 150)) = true) :=
  ⟨by decide, by decide, by decide⟩

/-- Claim C3 counterexample: transaction 1 reads key 1 (Score 100);
transaction 2 then *successfully commits* the identical value 100 to
key 1; transaction 1's subsequent validation nevertheless passes and its
commit returns true — so a successful commit by another transaction to a
read key does not by itself cause validation failure. -/
theorem claim_C3_counterexample :
    OCC.read c3o1 1 1 = some (c3or.1, some 100) ∧
    OCC.write c3o2 2 1 100 = some c3o3 ∧
    OCC.commit c3o3 2 = some (c3oc2.1, true) ∧
    (alookup c3oc2.1.transactions 1).map OTxn.read_set = some [(1, 100)] ∧
    OCC.commit c3oc2.1 1 = some (c3oc1.1, true) := by
  decide

/-- Claim C4 counterexample: under the flat policy T1's two reads of key 1
return 100 and then 120 after T2's interleaved commit; under the
multi-version policy of `mvcc_problem.py`, a transaction that begins at
logical time 1 reads 100, another transaction commits 120 at commit
timestamp 1, and the first transaction's second read returns 120. -/
theorem claim_C4_counterexample :
    (OCC.read c4o1 1 1 = some (c4or1.1, some 100) ∧
     OCC.commit c4o3 2 = some (c4oc2.1, true) ∧
     OCC.read c4oc2.1 1 1 = some (c4or2.1, some 120)) ∧
    (MVCC.read c4v3 2 1 = some (c4vr1.1, some 100) ∧
     MVCC.commit c4v5 3 = some (c4vc3.1, true) ∧
     MVCC.read c4vc3.1 2 1 = some (c4vr2.1, some 120)) := by
  decide

/-- Claim C6 counterexample: in the `mvocc_problem.py` store a transaction
that writes key 1 twice (values 7 then 9) keeps *both* entries buffered in
its write-set list, and its single successful commit appends *two* new
versions to key 1's chain, not one. -/
theorem claim_C6_counterexample :
    (alookup c6m3.transactions 1).map MTxn.write_set = some [(1, 7), (1, 9)] ∧
    MVOCC.commit c6m3 1 = some (c6mc.1, true) ∧
    (chainOf c6mc.1.records 1).length = 2 ∧
    (chainOf c6mc.1.records 1).map Version.value = [7, 9] := by
  decide

/-- Claim C7 counterexample: reading a key that is absent from the store
returns absent but records *nothing* in the read set — the observed
absence is not recorded, in either the multi-version or the flat
variant. -/
theorem claim_C7_counterexample :
    MVOCC.read c7m1 1 5 = some (c7mr.1, none) ∧
    (alookup c7mr.1.transactions 1).map MTxn.read_set = some [] ∧
    OCC.read c7o1 1 5 = some (c7or.1, none) ∧
    (alookup c7or.1.transactions 1).map OTxn.read_set = some [] := by
  decide

/-- Claim C8 counterexample: after transaction 1's `commit` returns true,
a second `commit` on the same id does not fail — it validates again,
re-applies the write set and appends a second entry to the commit log. -/
theorem claim_C8_counterexample :
    OCC.commit c8o2 1 = some (c8oc1.1, true) ∧
    OCC.commit c8oc1.1 1 = some (c8oc2.1, true) ∧
    c8oc2.1.commit_log = [1, 1] := by
  decide

/-- Claim C10: in both multi-version variants, `read` of a key that has
never been written returns absent yet grows the record store: the
defaultdict access inserts an empty version chain for the key (appended at
the end of the insertion-ordered map), with no other change. -/
theorem claim_C10 {V : Type} [DecidableEq V] (s : MState V) (tid k : Nat)
    (h : containsKey s.records k = false) :
    MVOCC.read s tid k =
      some ({ s with records := s.records ++ [(k, [])] }, none) ∧
    MVCC.read s tid k =
      some ({ s with records := s.records ++ [(k, [])] }, none) := by
  have hnc : ¬ containsKey s.records k = true := by
    rw [h]
    exact Bool.false_ne_true
  have ht : touch s.records k = s.records ++ [(k, [])] :=
    touch_of_not_contains hnc
  have hch : chainOf (touch s.records k) k = [] := by
    rw [ht, chainOf, alookup_append_none _ (alookup_none_of_not_contains hnc)]
    simp [alookup]
  constructor
  · simp only [MVOCC.read, hch]
    rw [if_pos (by rfl), ht]
  · simp only [MVCC.read, hch]
    rw [if_pos (by rfl), ht]

/-- Claim C1: a `commit` that returns false leaves the record store and the
commit log unchanged (under the flat variant the whole state is returned
untouched; under the `mvocc_problem.py` variant, for every reachable store
state, the record store and the log are unchanged), and a `commit` that
returns true appends exactly one entry — the committing transaction id —
to the commit log. -/
theorem claim_C1 {V : Type} [DecidableEq V] :
    (∀ (s : OState V) (tid : Nat) (s' : OState V),
       OCC.commit s tid = some (s', false) → s' = s) ∧
    (∀ (s : OState V) (tid : Nat) (s' : OState V),
       OCC.commit s tid = some (s', true) →
         s'.commit_log = s.commit_log ++ [tid]) ∧
    (∀ (s : MState V), MVOCC.Reach s → ∀ (tid : Nat) (s' : MState V),
       (MVOCC.commit s tid = some (s', false) →
          s'.records = s.records ∧ s'.commit_log = s.commit_log) ∧
       (MVOCC.commit s tid = some (s', true) →
          s'.commit_log = s.commit_log ++ [tid])) := by
  refine ⟨?_, ?_, ?_⟩
  · intro s tid s' hc
    obtain ⟨tx, hl, hcase⟩ := commit_cases_occ hc
    rcases hcase with ⟨_, _, h1⟩ | ⟨hb, _⟩
    · exact h1
    · exact absurd hb (by simp)
  · intro s tid s' hc
    obtain ⟨tx, hl, hcase⟩ := commit_cases_occ hc
    rcases hcase with ⟨hb, _⟩ | ⟨_, _, _, hlog, _⟩
    · exact absurd hb (by simp)
    · exact hlog
  · intro s hreach tid s'
    have hinv := reach_inv_mvocc hreach
    constructor
    · intro hc
      obtain ⟨tx, hl, _, _, hcase⟩ := commit_cases_mvocc hc
      rcases hcase with ⟨_, _, hrec, hlog⟩ | ⟨hb, _⟩
      · refine ⟨?_, hlog⟩
        rw [hrec]
        apply validateGo_records_id
        intro ki hki
        exact ((hinv.2 tid tx hl).2 ki hki).1
      · exact absurd hb (by simp)
    · intro hc
      obtain ⟨tx, hl, _, _, hcase⟩ := commit_cases_mvocc hc
      rcases hcase with ⟨hb, _⟩ | ⟨_, _, _, hlog⟩
      · exact absurd hb (by simp)
      · exact hlog

/-- Witness for C1: concrete failed and successful commits in the flat C9
states and in the reachable multi-version state `wM`. -/
theorem claim_C1_witness :
    c9oc1.1 = c9o4 ∧
    c9oc3.1.commit_log = c9o6.commit_log ++ [3] ∧
    (wMc2.1.records = wM.records ∧ wMc2.1.commit_log = wM.commit_log) ∧
    wMc3.1.commit_log = wM.commit_log ++ [3] := by
  refine ⟨?_, ?_, ?_, ?_⟩
  · exact (@claim_C1 Nat _).1 c9o4 1 c9oc1.1 (by decide)
  · exact (@claim_C1 Nat _).2.1 c9o6 3 c9oc3.1 (by decide)
  · exact ((@claim_C1 Nat _).2.2 wM ⟨wOps, by decide⟩ 2 wMc2.1).1 (by decide)
  · exact ((@claim_C1 Nat _).2.2 wM ⟨wOps, by decide⟩ 3 wMc3.1).2 (by decide)

/-- Claim C5: in every reachable state of either multi-version variant,
each key's chain is ordered by `begin_ts` ascending and has at most one
open version; and along any completed further run, each chain evolves only
by appending versions and by closing a previously open `end_ts`. -/
theorem claim_C5 {V : Type} [DecidableEq V] :
    (∀ (s : MState V), MVOCC.Reach s → ∀ k,
       chainSorted (chainOf s.records k) ∧
       countOpen (chainOf s.records k) ≤ 1) ∧
    (∀ (s s' : MState V) (ops : List (Op V)), MVOCC.Reach s →
       runWith MVOCC.step s ops = some s' →
       ∀ k, chainMono (chainOf s.records k) (chainOf s'.records k)) ∧
    (∀ (s : MState V), MVCC.Reach s → ∀ k,
       chainSorted (chainOf s.records k) ∧
       countOpen (chainOf s.records k) ≤ 1) ∧
    (∀ (s s' : MState V) (ops : List (Op V)), MVCC.Reach s →
       runWith MVCC.step s ops = some s' →
       ∀ k, chainMono (chainOf s.records k) (chainOf s'.records k)) := by
  refine ⟨?_, ?_, ?_, ?_⟩
  · intro s hreach k
    have hinv := reach_inv_mvocc hreach
    exact ⟨(hinv.1 k).1, countOpen_le_one (hinv.1 k).2.2.1⟩
  · intro s s' ops hreach hrun k
    exact (mono_run_mvocc ops (reach_inv_mvocc hreach) hrun).1 k
  · intro s hreach k
    have hinv := reach_inv_mvcc hreach
    exact ⟨(hinv.1 k).1, countOpen_le_one (hinv.1 k).2.2.1⟩
  · intro s s' ops hreach hrun k
    exact (mono_run_mvcc ops (reach_inv_mvcc hreach) hrun).1 k

/-- Witness for C5 at the concrete reachable states `wM` and `wV` and the
concrete continuation run `wOps2`. -/
theorem claim_C5_witness :
    (chainSorted (chainOf wM.records 1) ∧
     countOpen (chainOf wM.records 1) ≤ 1) ∧
    chainMono (chainOf wM.records 1) (chainOf wM2.records 1) ∧
    (chainSorted (chainOf wV.records 1) ∧
     countOpen (chainOf wV.records 1) ≤ 1) ∧
    chainMono (chainOf wV.records 1) (chainOf wV2.records 1) := by
  refine ⟨?_, ?_, ?_, ?_⟩
  · exact (@claim_C5 Nat _).1 wM ⟨wOps, by decide⟩ 1
  · exact (@claim_C5 Nat _).2.1 wM wM2 wOps2 ⟨wOps, by decide⟩ (by decide) 1
  · exact (@claim_C5 Nat _).2.2.1 wV ⟨wOps, by decide⟩ 1
  · exact (@claim_C5 Nat _).2.2.2 wV wV2 wOps2 ⟨wOps, by decide⟩ (by decide) 1

/-- Claim C4 amended: under the multi-version policy, the value visible to
a transaction at its begin timestamp is unchanged by any completed
sequence of further operations, *provided* the commit log has already
grown past the transaction's begin timestamp (every later commit then
closes or creates versions only at strictly larger timestamps); a
multi-version `read` returns exactly that visible value.  Under the flat
policy a `read` simply returns the key's *current* stored value, so two
reads agree only while the stored value is unchanged. -/
theorem claim_C4_amended {V : Type} [DecidableEq V] :
    (∀ (s s' : MState V) (ops : List (Op V)) (tid : Nat) (tx : MTxn V),
       MVCC.Reach s → alookup s.transactions tid = some tx →
       tx.begin_ts < s.commit_log.length →
       runWith MVCC.step s ops = some s' →
       ∀ k, readVal s' tx.begin_ts k = readVal s tx.begin_ts k) ∧
    (∀ (s : MState V) (tid k : Nat) (tx : MTxn V) (p : MState V × Option V),
       alookup s.transactions tid = some tx →
       MVCC.read s tid k = some p → p.2 = readVal s tx.begin_ts k) ∧
    (∀ (s : OState V) (tid k : Nat) (p : OState V × Option V),
       OCC.read s tid k = some p → p.2 = alookup s.records k) := by
  refine ⟨?_, ?_, ?_⟩
  · intro s s' ops tid tx hreach htx hb hrun k
    exact readVal_run_mvcc ops (reach_inv_mvcc hreach) hb hrun k
  · intro s tid k tx p htx hr
    simp only [MVCC.read] at hr
    by_cases hc : (chainOf (touch s.records k) k).isEmpty = true
    · rw [if_pos hc] at hr
      cases hr
      have h0 : chainOf s.records k = [] := by
        rw [← chainOf_touch s.records k k]
        exact List.isEmpty_iff.mp hc
      rw [readVal, h0]
      rfl
    · rw [if_neg hc] at hr
      split at hr
      · exact Option.noConfusion hr
      · rename_i tx0 hl0
        rw [htx] at hl0
        cases hl0
        split at hr
        · rename_i hf
          cases hr
          rw [readVal, ← chainOf_touch s.records k k, hf]
          rfl
        · rename_i q hf
          cases hr
          rw [readVal, ← chainOf_touch s.records k k, hf]
          rfl
  · intro s tid k p hr
    rw [OCC.read] at hr
    split at hr
    · cases hr
      rename_i hnone
      rw [hnone]
    · rename_i v hv
      split at hr
      · exact Option.noConfusion hr
      · cases hr
        rw [hv]

/-- Witness for the amended C4: in the reachable state `wV`, transaction
2 began at timestamp 1 while the log already has length 2; its visible
value for key 1 survives the further run `wOps2`, and concrete reads
return the visible (respectively current) values. -/
theorem claim_C4_amended_witness :
    readVal wV2 wVt2.begin_ts 1 = readVal wV wVt2.begin_ts 1 ∧
    wVr.2 = readVal wV wVt2.begin_ts 1 ∧
    c9or1.2 = alookup c9o1.records 1 := by
  refine ⟨?_, ?_, ?_⟩
  · exact (@claim_C4_amended Nat _).1 wV wV2 wOps2 2 wVt2 ⟨wOps, by decide⟩
      (by decide) (by decide) (by decide) 1
  · exact (@claim_C4_amended Nat _).2.1 wV 2 1 wVt2 wVr (by decide) (by decide)
  · exact (@claim_C4_amended Nat _).2.2 c9o1 1 1 c9or1 (by decide)

/-- Claim C2: in every reachable state of either multi-version variant,
commit-time validation of a transaction fails if and only if some entry of
its read set conflicts in the spec's sense — the version at the head of
that key's chain differs from the recorded version, or the recorded
version's `end_ts` is set and at most the commit-log length at validation
time.  (`mvocc_problem.py` checks `begin_ts` order plus closure, and
`mvcc_problem.py` checks head equality only; on reachable states both are
equivalent to the spec's condition.) -/
theorem claim_C2 {V : Type} [DecidableEq V] :
    (∀ (s : MState V), MVOCC.Reach s → ∀ (tid : Nat) (tx : MTxn V),
       alookup s.transactions tid = some tx →
       ((MVOCC.validateGo s.commit_log.length s.records tx.read_set).2 =
          false ↔
        specConflict s.records s.commit_log.length tx.read_set = true)) ∧
    (∀ (s : MState V), MVCC.Reach s → ∀ (tid : Nat) (tx : MTxn V),
       alookup s.transactions tid = some tx →
       ((MVCC.checkGo s.records tx.read_set).2 = false ↔
        specConflict s.records s.commit_log.length tx.read_set = true)) := by
  constructor
  · intro s hreach tid tx htx
    have hinv := reach_inv_mvocc hreach
    exact validateGo_iff s.commit_log.length tx.read_set s.records
      (fun k => hinv.1 k) (fun ki hki => (hinv.2 tid tx htx).2 ki hki)
  · intro s hreach tid tx htx
    have hinv := reach_inv_mvcc hreach
    exact checkGo_iff s.commit_log.length tx.read_set s.records
      (fun k => hinv.1 k) (fun ki hki => (hinv.2 tid tx htx).2 ki hki)

/-- Witness for C2 at the concrete reachable states `wM` and `wV`, for
transaction 2 whose recorded version of key 1 has been superseded. -/
theorem claim_C2_witness :
    ((MVOCC.validateGo wM.commit_log.length wM.records wMt2.read_set).2 =
        false ↔
      specConflict wM.records wM.commit_log.length wMt2.read_set = true) ∧
    ((MVCC.checkGo wV.records wVt2.read_set).2 = false ↔
      specConflict wV.records wV.commit_log.length wVt2.read_set = true) := by
  constructor
  · exact (@claim_C2 Nat _).1 wM ⟨wOps, by decide⟩ 2 wMt2 (by decide)
  · exact (@claim_C2 Nat _).2 wV ⟨wOps, by decide⟩ 2 wVt2 (by decide)

/-- Claim C3 amended: under the flat policy, validation fails iff some key
in the read set has a current stored value not identical in content to the
recorded value (or the key is no longer present); in particular, any
successful commit by another transaction *whose effective write installs a
value different in content* for a key this transaction read causes its
validation to fail.  (A successful commit that re-installs the identical
value does not invalidate the reader — see the counterexample.) -/
theorem claim_C3_amended {V : Type} [DecidableEq V] :
    (∀ (r : List (Nat × V)) (tx : OTxn V),
       OCC.validateB r tx = false ↔
         ∃ kv ∈ tx.read_set, alookup r kv.1 ≠ some kv.2) ∧
    (∀ (s : OState V) (tid' : Nat) (s' : OState V) (tx' tx : OTxn V)
       (k : Nat) (v v' : V),
       alookup s.transactions tid' = some tx' →
       OCC.commit s tid' = some (s', true) →
       alookup tx.read_set k = some v →
       alookup tx'.write_set.reverse k = some v' → v' ≠ v →
       OCC.validateB s'.records tx = false) := by
  refine ⟨validateB_false_iff, ?_⟩
  intro s tid' s' tx' tx k v v' htx' hcommit hrs hws hne
  obtain ⟨tx0, hl0, hcase⟩ := commit_cases_occ hcommit
  rw [htx'] at hl0
  cases hl0
  rcases hcase with ⟨hb, _⟩ | ⟨_, _, hrec, _⟩
  · exact absurd hb (by simp)
  · have hv' : alookup s'.records k = some v' := by
      rw [hrec]
      exact alookup_applyAll_some _ _ _ _ hws
    refine (validateB_false_iff _ _).mpr ⟨(k, v), alookup_mem hrs, ?_⟩
    rw [hv']
    intro he
    exact hne (Option.some_injective _ he)

/-- Witness for the amended C3: in the C9 flat states, transaction 2
successfully commits 120 for key 1 that transaction 1 had read as 100, and
transaction 1's validation indeed fails afterwards. -/
theorem claim_C3_amended_witness :
    OCC.validateB c9oc2.1.records c3wr = false :=
  (@claim_C3_amended Nat _).2 c9o3 2 c9oc2.1 c3ww c3wr 1 100 120
    (by decide) (by decide) (by decide) (by decide) (by decide)

/-- Claim C6 amended: in the flat store the write set is a dictionary with
last-write-wins — after `write v1; write v2` only `v2` is the effective
binding and a successful commit installs the effective (last) binding of
each written key.  In the multi-version store the write set is an
append-only list retaining both writes, and a successful commit of a
transaction whose write set is `[(k, v1), (k, v2)]` appends *two*
versions for `k` — the final open head version carries `v2`, so
last-write-wins holds for the visible value but not for the chain. -/
theorem claim_C6_amended {V : Type} [DecidableEq V] :
    (∀ (s s1 s2 : OState V) (tid k : Nat) (v1 v2 : V) (tx2 : OTxn V),
       OCC.write s tid k v1 = some s1 → OCC.write s1 tid k v2 = some s2 →
       alookup s2.transactions tid = some tx2 →
       alookup tx2.write_set k = some v2) ∧
    (∀ (s : OState V) (tid : Nat) (s' : OState V) (tx : OTxn V)
       (k : Nat) (v' : V),
       alookup s.transactions tid = some tx →
       OCC.commit s tid = some (s', true) →
       alookup tx.write_set.reverse k = some v' →
       alookup s'.records k = some v') ∧
    (∀ (s : MState V) (tid : Nat) (tx : MTxn V) (k : Nat) (v1 v2 : V)
       (s' : MState V),
       alookup s.transactions tid = some tx →
       tx.write_set = [(k, v1), (k, v2)] →
       MVOCC.commit s tid = some (s', true) →
       (chainOf s'.records k).length = (chainOf s.records k).length + 2 ∧
       (chainOf s'.records k).getLast? =
         some ⟨v2, s.commit_log.length, none, tid⟩) := by
  refine ⟨?_, ?_, ?_⟩
  · intro s s1 s2 tid k v1 v2 tx2 hw1 hw2 htx2
    rw [OCC.write] at hw1
    split at hw1
    · exact Option.noConfusion hw1
    · rename_i tx hl
      cases hw1
      rw [OCC.write] at hw2
      split at hw2
      · rename_i hnone
        rw [alookup_aset_self] at hnone
        exact Option.noConfusion hnone
      · rename_i tx1 hl1
        rw [alookup_aset_self] at hl1
        cases hl1
        cases hw2
        rw [alookup_aset_self] at htx2
        cases htx2
        exact alookup_aset_self _ _ _
  · intro s tid s' tx k v' htx hcommit hws
    obtain ⟨tx0, hl0, hcase⟩ := commit_cases_occ hcommit
    rw [htx] at hl0
    cases hl0
    rcases hcase with ⟨hb, _⟩ | ⟨_, _, hrec, _⟩
    · exact absurd hb (by simp)
    · rw [hrec]
      exact alookup_applyAll_some _ _ _ _ hws
  · intro s tid tx k v1 v2 s' htx hwset hcommit
    obtain ⟨tx0, hl0, _, _, hcase⟩ := commit_cases_mvocc hcommit
    rw [htx] at hl0
    cases hl0
    rcases hcase with ⟨hb, _⟩ | ⟨_, _, hrec, _⟩
    · exact absurd hb (by simp)
    · rw [hrec, hwset]
      have h1 : applyWrites
          (MVOCC.validateGo s.commit_log.length s.records tx.read_set).1
          [(k, v1), (k, v2)] tid s.commit_log.length =
          applyWrite
            (applyWrite
              (MVOCC.validateGo s.commit_log.length s.records tx.read_set).1
              tid s.commit_log.length (k, v1))
            tid s.commit_log.length (k, v2) := rfl
      rw [h1]
      have h2 : chainOf
          (applyWrite
            (applyWrite
              (MVOCC.validateGo s.commit_log.length s.records tx.read_set).1
              tid s.commit_log.length (k, v1))
            tid s.commit_log.length (k, v2)) k =
          applyChain
            (chainOf
              (applyWrite
                (MVOCC.validateGo s.commit_log.length s.records
                  tx.read_set).1
                tid s.commit_log.length (k, v1)) k)
            v2 s.commit_log.length tid :=
        chainOf_applyWrite_self _ _ _ _
      have h3 : chainOf
          (applyWrite
            (MVOCC.validateGo s.commit_log.length s.records tx.read_set).1
            tid s.commit_log.length (k, v1)) k =
          applyChain
            (chainOf
              (MVOCC.validateGo s.commit_log.length s.records tx.read_set).1
              k)
            v1 s.commit_log.length tid :=
        chainOf_applyWrite_self _ _ _ _
      rw [h2, h3, validateGo_chainOf]
      constructor
      · rw [applyChain_length, applyChain_length]
      · rw [applyChain, List.getLast?_concat]

/-- Witness for the amended C6: the buffered flat write-set holds only the
second value; a concrete flat commit installs the effective binding; the
concrete double-write multi-version commit of `c6m3` grows key 1's chain
by exactly two versions with open head value 9. -/
theorem claim_C6_amended_witness :
    alookup c6ot.write_set 5 = some 2 ∧
    alookup c8oc1.1.records 5 = some 10 ∧
    ((chainOf c6mc.1.records 1).length = (chainOf c6m3.records 1).length + 2 ∧
     (chainOf c6mc.1.records 1).getLast? =
       some ⟨9, c6m3.commit_log.length, none, 1⟩) := by
  refine ⟨?_, ?_, ?_⟩
  · exact (@claim_C6_amended Nat _).1 c8o1 c6od1 c6od2 1 5 1 2 c6ot
      (by decide) (by decide) (by decide)
  · exact (@claim_C6_amended Nat _).2.1 c8o2 1 c8oc1.1 c8t1 5 10
      (by decide) (by decide) (by decide)
  · exact (@claim_C6_amended Nat _).2.2 c6m3 1 c6t1 1 7 9 c6mc.1
      (by decide) (by decide) (by decide)

/-- Claim C7 amended: `read` records the observed version into the read
set only when a value is actually observed; when the key is absent (no
visible version), the read returns absent and records *nothing* — the
observed absence is not recorded.  Recording does happen for read-only
keys (no write required). -/
theorem claim_C7_amended {V : Type} [DecidableEq V] :
    (∀ (s : OState V) (tid k : Nat) (tx : OTxn V) (p : OState V × Option V),
       alookup s.transactions tid = some tx →
       OCC.read s tid k = some p →
       ((∀ v, alookup s.records k = some v →
           p.2 = some v ∧
           (alookup p.1.transactions tid).map OTxn.read_set =
             some (aset tx.read_set k v)) ∧
        (alookup s.records k = none → p = (s, none)))) ∧
    (∀ (s : MState V) (tid k : Nat) (tx : MTxn V) (p : MState V × Option V),
       alookup s.transactions tid = some tx →
       MVOCC.read s tid k = some p →
       ((∀ q, findVisible (chainOf s.records k) tx.begin_ts = some q →
           p.2 = some q.2.value ∧
           (alookup p.1.transactions tid).map MTxn.read_set =
             some (tx.read_set ++ [(k, q.1)])) ∧
        (findVisible (chainOf s.records k) tx.begin_ts = none →
           p.2 = none ∧ p.1.transactions = s.transactions))) := by
  constructor
  · intro s tid k tx p htx hr
    rw [OCC.read] at hr
    split at hr
    · rename_i hnone
      cases hr
      constructor
      · intro v hv
        rw [hnone] at hv
        exact Option.noConfusion hv
      · intro _
        rfl
    · rename_i v0 hsome
      split at hr
      · exact Option.noConfusion hr
      · rename_i tx0 hl0
        rw [htx] at hl0
        cases hl0
        cases hr
        constructor
        · intro v hv
          rw [hsome] at hv
          cases hv
          refine ⟨rfl, ?_⟩
          rw [alookup_aset_self]
          rfl
        · intro hn
          rw [hsome] at hn
          exact Option.noConfusion hn
  · intro s tid k tx p htx hr
    simp only [MVOCC.read] at hr
    by_cases hc : (chainOf (touch s.records k) k).isEmpty = true
    · rw [if_pos hc] at hr
      cases hr
      have h0 : chainOf s.records k = [] := by
        rw [← chainOf_touch s.records k k]
        exact List.isEmpty_iff.mp hc
      constructor
      · intro q hq
        rw [h0] at hq
        simp [findVisible] at hq
      · intro _
        exact ⟨rfl, rfl⟩
    · rw [if_neg hc] at hr
      split at hr
      · exact Option.noConfusion hr
      · rename_i tx0 hl0
        rw [htx] at hl0
        cases hl0
        split at hr
        · rename_i hf
          cases hr
          rw [chainOf_touch] at hf
          constructor
          · intro q hq
            rw [hf] at hq
            exact Option.noConfusion hq
          · intro _
            exact ⟨rfl, rfl⟩
        · rename_i q0 hf
          cases hr
          rw [chainOf_touch] at hf
          constructor
          · intro q hq
            rw [hf] at hq
            cases hq
            refine ⟨rfl, ?_⟩
            rw [alookup_aset_self]
            rfl
          · intro hn
            rw [hf] at hn
            exact Option.noConfusion hn

/-- Witness for the amended C7: concrete present-key reads record exactly
the observed value or version position; concrete absent-key reads record
nothing. -/
theorem claim_C7_amended_witness :
    (c9or1.2 = some 100 ∧
     (alookup c9or1.1.transactions 1).map OTxn.read_set =
       some (aset c7ot.read_set 1 100)) ∧
    c7or = (c7o1, none) ∧
    (c9mr1.2 = some (100 : Nat) ∧
     (alookup c9mr1.1.transactions 1).map MTxn.read_set =
       some (c7mt.read_set ++ [(1, 0)])) ∧
    (c7mr.2 = none ∧ c7mr.1.transactions = c7m1.transactions) := by
  refine ⟨?_, ?_, ?_, ?_⟩
  · exact ((@claim_C7_amended Nat _).1 c9o1 1 1 c7ot c9or1 (by decide)
      (by decide)).1 100 (by decide)
  · exact ((@claim_C7_amended Nat _).1 c7o1 1 5 c7ot c7or (by decide)
      (by decide)).2 (by decide)
  · exact ((@claim_C7_amended Nat _).2 c9m1 1 1 c7mt c9mr1 (by decide)
      (by decide)).1 (0, ⟨100, 0, none, 0⟩) (by decide)
  · exact ((@claim_C7_amended Nat _).2 c7m1 1 5 c7mt c7mr (by decide)
      (by decide)).2 (by decide)

/-- Claim C8 amended: the implementation tracks no transaction lifecycle at
all — `commit` leaves the transaction table untouched, so after a commit
the very same id can still `write` (and even `commit` again, see the
counterexample); an operation on an unknown id fails with a `KeyError`
only when it actually touches the transaction table, and a flat `read` of
an absent key under an unknown id silently returns absent. -/
theorem claim_C8_amended {V : Type} [DecidableEq V] :
    (∀ (s : OState V) (tid : Nat) (p : OState V × Bool),
       OCC.commit s tid = some p → p.1.transactions = s.transactions) ∧
    (∀ (s : OState V) (tid : Nat) (tx : OTxn V) (p : OState V × Bool),
       alookup s.transactions tid = some tx → OCC.commit s tid = some p →
       ∀ (k : Nat) (v : V), (OCC.write p.1 tid k v).isSome = true) ∧
    (∀ (s : OState V) (tid k : Nat) (v : V),
       alookup s.transactions tid = none → OCC.write s tid k v = none) ∧
    (∀ (s : OState V) (tid k : Nat),
       alookup s.records k = none → OCC.read s tid k = some (s, none)) := by
  have hA : ∀ (s : OState V) (tid : Nat) (p : OState V × Bool),
      OCC.commit s tid = some p → p.1.transactions = s.transactions := by
    intro s tid p hc
    obtain ⟨tx, hl, hcase⟩ := commit_cases_occ hc
    rcases hcase with ⟨_, _, h1⟩ | ⟨_, _, _, _, h1, _⟩
    · rw [h1]
    · exact h1
  refine ⟨hA, ?_, ?_, ?_⟩
  · intro s tid tx p htx hc k v
    have h1 : alookup p.1.transactions tid = some tx := by
      rw [hA s tid p hc]
      exact htx
    rw [OCC.write]
    split
    · rename_i hnone
      rw [h1] at hnone
      exact Option.noConfusion hnone
    · rfl
  · intro s tid k v h
    rw [OCC.write, h]
  · intro s tid k h
    rw [OCC.read, h]

/-- Witness for the amended C8: concrete instances — the transaction table
survives a commit, a post-commit write succeeds, a write under the unknown
id 9 fails, and a read of an absent key under the unknown id 9 silently
returns absent. -/
theorem claim_C8_amended_witness :
    c8oc1.1.transactions = c8o2.transactions ∧
    (OCC.write c8oc1.1 1 5 11).isSome = true ∧
    OCC.write (OCC.OInit Nat) 9 5 1 = none ∧
    OCC.read (OCC.OInit Nat) 9 5 = some (OCC.OInit Nat, none) := by
  refine ⟨?_, ?_, ?_, ?_⟩
  · exact (@claim_C8_amended Nat _).1 c8o2 1 c8oc1 (by decide)
  · exact (@claim_C8_amended Nat _).2.1 c8o2 1 c8t1 c8oc1 (by decide)
      (by decide) 5 11
  · exact (@claim_C8_amended Nat _).2.2.1 (OCC.OInit Nat) 9 5 1 (by decide)
  · exact (@claim_C8_amended Nat _).2.2.2 (OCC.OInit Nat) 9 5 (by decide)

/-- Witness for C10 at a concrete store: the fresh store after one
`new_transaction`, reading the never-written key 5. -/
theorem claim_C10_witness :
    MVOCC.read c7m1 1 5 =
      some ({ c7m1 with records := c7m1.records ++ [(5, [])] }, none) ∧
    MVCC.read c7m1 1 5 =
      some ({ c7m1 with records := c7m1.records ++ [(5, [])] }, none) :=
  claim_C10 c7m1 1 5 (by decide)

end CCModel
